import Mathlib

/-!
Verification of the Symantec Cloud SOC event-collection engine
(`Packs/SymantecCloudSOC/Integrations/SymantecCloudSOC/SymantecCloudSOC.py`).

The development shallowly embeds the collector's deduplication algorithm
(`dedup_by_id`), the per-category pagination driver
(`get_all_events_for_log_type`) and the orchestrator (`fetch_events_command`).

Modelling conventions:
* A Python `datetime.strptime(s, '%Y-%m-%dT%H:%M:%S')` call is modelled by
  `parseTS : String → Option Nat`, which succeeds exactly on canonical
  zero-padded `YYYY-MM-DDTHH:MM:SS` strings denoting valid calendar
  datetimes and returns a `Nat` key whose order coincides with `datetime`
  order (a mixed-radix encoding of the six components).  `none` stands for
  the `ValueError`/`TypeError` the Python call raises; a raised exception is
  tracked by an explicit `raised` flag / `Except` error.
* An upstream record (a JSON dict) is modelled by its fields the engine
  reads: `_id`, `created_timestamp`, `incident_start_time`.  Each is
  `Option`-valued because `dict.get` yields `None` for a missing key.
  `add_fields_to_event` only writes the fresh keys `_time` and `type`,
  which the collection logic never reads back, so on the modelled fields it
  is the identity and is elided.
* The per-category "last run" dict is modelled by `LastRun` with an
  `Option` for each of its two keys (`f'{log_type}-ids'` and `"last_run"`),
  `none` meaning the key is absent.
* `dict_safe_get(last_run, [f'{log_type}-ids'], default_return_value=[])`
  returns the list object stored in the caller's dict (not a copy), and
  `last_run_ids.append(event_id)` mutates that object in place.  The field
  `DedupRet.priorIdsAfter` records the contents of the caller's stored list
  when `dedup_by_id` returns (or when its exception escapes); it is `none`
  when the key was absent (the default `[]` is a fresh list the caller
  never sees).
-/

namespace SymantecCloudSOC

/-! ### Timestamps: model of `datetime.strptime(_, DATE_FORMAT_SYMANTEC)` -/

def digitVal (c : Char) : Option Nat :=
  if c.isDigit then some (c.toNat - 48) else none

def isLeap (y : Nat) : Bool :=
  (y % 4 == 0 && y % 100 != 0) || y % 400 == 0

def daysInMonth (y m : Nat) : Nat :=
  if m == 2 then (if isLeap y then 29 else 28)
  else if m == 4 || m == 6 || m == 9 || m == 11 then 30
  else 31

def num2 (a b : Char) : Option Nat := do
  let x ← digitVal a
  let y ← digitVal b
  pure (10 * x + y)

def num4 (a b c d : Char) : Option Nat := do
  let x ← num2 a b
  let y ← num2 c d
  pure (100 * x + y)

/-- Mixed-radix key for a datetime; each radix strictly bounds its
component's range, so the key order is the lexicographic (= `datetime`)
order on components. -/
def mkKey (y mo d h mi s : Nat) : Nat :=
  ((((y * 13 + mo) * 32 + d) * 24 + h) * 60 + mi) * 60 + s

def validDate (y mo d h mi s : Nat) : Prop :=
  1 ≤ y ∧ 1 ≤ mo ∧ mo ≤ 12 ∧ 1 ≤ d ∧ d ≤ daysInMonth y mo ∧
    h ≤ 23 ∧ mi ≤ 59 ∧ s ≤ 59

instance (y mo d h mi s : Nat) : Decidable (validDate y mo d h mi s) := by
  unfold validDate; infer_instance

def parseTS (str : String) : Option Nat :=
  match str.data with
  | [y1, y2, y3, y4, c1, m1, m2, c2, d1, d2, c3, h1, h2, c4, n1, n2, c5, s1, s2] =>
    if c1 = '-' ∧ c2 = '-' ∧ c3 = 'T' ∧ c4 = ':' ∧ c5 = ':' then do
      let y ← num4 y1 y2 y3 y4
      let mo ← num2 m1 m2
      let d ← num2 d1 d2
      let h ← num2 h1 h2
      let mi ← num2 n1 n2
      let s ← num2 s1 s2
      if validDate y mo d h mi s then some (mkKey y mo d h mi s) else none
    else none
  | _ => none

/-! ### Data model -/

/-- The two entries of the `LOG_TYPES` dict, in iteration order. -/
inductive LogType where
  | investigate
  | incident
deriving DecidableEq, Repr

/-- The fields of an upstream record read by the engine. -/
structure Event where
  eid : Option String
  createdTimestamp : Option String
  incidentStartTime : Option String
deriving DecidableEq, Repr

/-- `event.get("incident_start_time") if log_type == "Incident_logs" else
event.get("created_timestamp")` (source lines 184-186). -/
def eventTimestamp (lt : LogType) (e : Event) : Option String :=
  match lt with
  | .incident => e.incidentStartTime
  | .investigate => e.createdTimestamp

/-- Parsed timestamp key of an event, when its field is present and parses. -/
def tsKey (lt : LogType) (e : Event) : Option Nat :=
  (eventTimestamp lt e).bind parseTS

/-- The per-log-type last-run dict: key `f'{log_type}-ids'` and key
`"last_run"`, each possibly absent. -/
structure LastRun where
  ids : Option (List (Option String))
  lastRun : Option String
deriving DecidableEq, Repr

/-- `dict_safe_get(last_run, ["last_run"]) or last_fetch` (source line 175):
the stored value unless it is absent or falsy (the empty string). -/
def effectiveLastRunTime (lastRun : Option LastRun) (lastFetch : String) : String :=
  match lastRun.bind (·.lastRun) with
  | some t => if t = "" then lastFetch else t
  | none => lastFetch

/-! ### `dedup_by_id` (source lines 156-221) -/

/-- The mutable locals of the `for event in events` loop. -/
structure LoopSt where
  newEvents : List Event
  newEventsIds : List (Option String)
  lastRunIds : List (Option String)
  newLastRunTime : String
  raised : Bool
deriving DecidableEq, Repr

/-- Lines 191-194: accept a boundary-timestamp record and append its id to
the (aliased) `last_run_ids` list. -/
def acceptBoundary (s : LoopSt) (e : Event) : LoopSt :=
  { s with newEvents := s.newEvents ++ [e],
           lastRunIds := s.lastRunIds ++ [e.eid] }

/-- Lines 197-199: accept a record whose timestamp differs from
`last_run_time` and record its id in `new_events_ids`. -/
def acceptNewer (s : LoopSt) (e : Event) : LoopSt :=
  { s with newEvents := s.newEvents ++ [e],
           newEventsIds := s.newEventsIds ++ [e.eid] }

/-- Lines 202-205: the two `strptime` calls and the conditional advance of
`new_last_run_time`.  The record was already appended (lines 197-199), so a
parse failure raises with the acceptance already performed; the pair match
reproduces Python's outcome for every raising evaluation order. -/
def advanceNewer (lt : LogType) (s : LoopSt) (e : Event) : LoopSt :=
  match parseTS s.newLastRunTime, eventTimestamp lt e with
  | some d1, some tstr =>
    match parseTS tstr with
    | some d2 =>
      if d1 < d2 then { acceptNewer s e with newLastRunTime := tstr }
      else acceptNewer s e
    | none => { acceptNewer s e with raised := true }
  | _, _ => { acceptNewer s e with raised := true }

/-- One iteration of the loop body (source lines 182-205).  A step taken
after an exception has been raised is the identity: in Python the exception
exits the loop, so later iterations never run. -/
def dedupStep (lt : LogType) (lrt : String) (limit numberOfEvents : Nat)
    (s : LoopSt) (e : Event) : LoopSt :=
  if s.raised then s
  else if s.newEvents.length + numberOfEvents < limit then
    if eventTimestamp lt e = some lrt then
      if e.eid ∈ s.lastRunIds then s else acceptBoundary s e
    else advanceNewer lt s e
  else s

def dedupLoop (lt : LogType) (lrt : String) (limit numberOfEvents : Nat)
    (events : List Event) (s : LoopSt) : LoopSt :=
  events.foldl (dedupStep lt lrt limit numberOfEvents) s

/-- Everything observable about a `dedup_by_id` call: the returned pair,
whether an exception escaped, and the mutation performed on the caller's
stored ids list. -/
structure DedupRet where
  raised : Bool
  newEvents : List Event
  newLastRun : LastRun
  newEventsIds : List (Option String)
  lastRunIdsFinal : List (Option String)
  priorIdsAfter : Option (List (Option String))
deriving DecidableEq, Repr

/-- The local state at the top of the loop (source lines 173-179). -/
def initSt (ids0 : List (Option String)) (lrt : String) : LoopSt :=
  { newEvents := [], newEventsIds := [], lastRunIds := ids0,
    newLastRunTime := lrt, raised := false }

/-- A `DedupRet` for a call whose exception escapes: no value is returned,
but the mutation of the caller's list has already happened. -/
def raisedRet (fin : LoopSt) (pia : Option (List (Option String))) : DedupRet :=
  { raised := true, newEvents := fin.newEvents,
    newLastRun := { ids := none, lastRun := none },
    newEventsIds := fin.newEventsIds, lastRunIdsFinal := fin.lastRunIds,
    priorIdsAfter := pia }

/-- Post-loop resolution for a non-empty batch (source lines 207-216),
including the two `strptime` calls on line 209-210 that can raise. -/
def dedupPost (lastRun : Option LastRun) (lrt : String) (fin : LoopSt) : DedupRet :=
  let pia := (lastRun.bind (·.ids)).map (fun _ => fin.lastRunIds)
  if fin.raised then raisedRet fin pia
  else
    match parseTS lrt with
    | none => raisedRet fin pia
    | some dl =>
      match parseTS fin.newLastRunTime with
      | none => raisedRet fin pia
      | some dn =>
        let idsFinal :=
          if dl < dn ∧ fin.newEventsIds ≠ [] then fin.newEventsIds
          else fin.newEventsIds ++ fin.lastRunIds
        let lastRunVal :=
          if fin.newLastRunTime = "" then lrt else fin.newLastRunTime
        { raised := false, newEvents := fin.newEvents,
          newLastRun := { ids := some idsFinal, lastRun := some lastRunVal },
          newEventsIds := fin.newEventsIds, lastRunIdsFinal := fin.lastRunIds,
          priorIdsAfter := pia }

def dedup (lastRun : Option LastRun) (events : List Event) (lt : LogType)
    (limit numberOfEvents : Nat) (lastFetch : String) : DedupRet :=
  let ids0 : List (Option String) := (lastRun.bind (·.ids)).getD []
  let lrt : String := effectiveLastRunTime lastRun lastFetch
  if events = [] then
    -- `elif last_run_time:` branch (lines 217-219); the `-ids` key is not set.
    { raised := false, newEvents := [],
      newLastRun := if lrt ≠ "" then { ids := none, lastRun := some lrt }
                    else { ids := none, lastRun := none },
      newEventsIds := [], lastRunIdsFinal := ids0,
      priorIdsAfter := lastRun.bind (·.ids) }
  else
    dedupPost lastRun lrt
      (dedupLoop lt lrt limit numberOfEvents events (initSt ids0 lrt))

/-! ### `get_all_events_for_log_type` (source lines 224-258) and
`fetch_events_command` (source lines 261-303) -/

/-- A page fetcher: `created_timestamp` and `next_url` (the empty string is
the falsy initial token) to a batch of logs plus an optional next token, or
an HTTP error (which `client.get_events_request` raises). -/
def Fetcher : Type := String → String → Except Unit (List Event × Option String)

/-- The `while next_url is not None and len(all_events_list) < max_fetch`
loop (source lines 247-257).  `fuel` bounds the number of pages the model
will follow; the claims are instantiated with fetchers that finish well
within the given fuel, and running out of fuel is reported as an error. -/
def getAllEventsLoop (f : Fetcher) (lt : LogType) (maxFetch : Nat)
    (lastFetch : String) :
    Nat → Option String → List Event → Option LastRun →
      Except Unit (List Event × Option LastRun)
  | 0, _, _, _ => .error ()
  | fuel + 1, tokenOpt, acc, st =>
    match tokenOpt with
    | none => .ok (acc, st)
    | some token =>
      if acc.length < maxFetch then
        match f lastFetch token with
        | .error e => .error e
        | .ok (logs, nextUrl) =>
          let r := dedup st logs lt maxFetch acc.length lastFetch
          if r.raised then .error ()
          else
            getAllEventsLoop f lt maxFetch lastFetch fuel nextUrl
              (acc ++ r.newEvents) (some r.newLastRun)
      else .ok (acc, st)

/-- The full per-category last-run map keyed by log type. -/
structure LastRunMap where
  investigate : Option LastRun
  incident : Option LastRun
deriving DecidableEq, Repr

def LastRunMap.get (m : LastRunMap) : LogType → Option LastRun
  | .investigate => m.investigate
  | .incident => m.incident

/-- `get_all_events_for_log_type`: computes the cycle's lower bound
(source lines 242-246) and runs the pagination loop from the empty token. -/
def getAllEventsForLogType (fuel : Nat) (f : Fetcher) (lt : LogType)
    (maxFetch : Nat) (lastRunMap : LastRunMap)
    (firstFetchTime firstFetchTimeInvestigate : String) :
    Except Unit (List Event × Option LastRun) :=
  let stOpt := lastRunMap.get lt
  let firstDefault :=
    match lt with
    | .investigate => firstFetchTimeInvestigate
    | .incident => firstFetchTime
  let lastFetch :=
    match stOpt.bind (·.lastRun) with
    | some t => if t = "" then firstDefault else t
    | none => firstDefault
  getAllEventsLoop f lt maxFetch lastFetch fuel (some "") [] stOpt

/-- `fetch_events_command`: iterates the two log types in `LOG_TYPES` order
(Investigate first), collecting each; an exception from either collection
propagates and aborts the whole command. -/
def fetchEventsCommand (fuel : Nat) (f : LogType → Fetcher) (maxFetch : Nat)
    (lastRunMap : LastRunMap) (firstFetchTime firstFetchTimeInvestigate : String) :
    Except Unit (LastRunMap × List Event) := do
  let rInv ← getAllEventsForLogType fuel (f .investigate) .investigate maxFetch
    lastRunMap firstFetchTime firstFetchTimeInvestigate
  let rInc ← getAllEventsForLogType fuel (f .incident) .incident maxFetch
    lastRunMap firstFetchTime firstFetchTimeInvestigate
  .ok ({ investigate := rInv.2, incident := rInc.2 }, rInv.1 ++ rInc.1)

/-! ### A canonical upstream for the chained-cycle claims -/

/-- Does event `e`'s timestamp parse to a key at or above the bound? -/
def atOrAbove (lt : LogType) (bound : String) (e : Event) : Bool :=
  match tsKey lt e, parseTS bound with
  | some t, some b => b ≤ t
  | _, _ => false

/-- All records of the fixed upstream `U` with timestamp at or above the
bound, in `U`'s order. -/
def fetchFrom (U : List Event) (lt : LogType) (bound : String) : List Event :=
  U.filter (atOrAbove lt bound)

/-- An upstream that answers any query with the single complete page of
records at or above the requested lower bound. -/
def canonicalFetcher (U : List Event) (lt : LogType) : Fetcher :=
  fun created _ => .ok (fetchFrom U lt created, none)

/-- A last-run map holding a state for one log type only. -/
def LastRunMap.single : LogType → Option LastRun → LastRunMap
  | .investigate, st => { investigate := st, incident := none }
  | .incident, st => { investigate := none, incident := st }

/-- One collection cycle for one category against the fixed upstream `U`:
`get_all_events_for_log_type` driven by the canonical single-page fetcher,
with the category's prior state installed in the last-run map. -/
def cycle (U : List Event) (lt : LogType) (maxFetch : Nat)
    (st : Option LastRun) (firstFetchTime : String) :
    Except Unit (List Event × Option LastRun) :=
  getAllEventsForLogType 2 (canonicalFetcher U lt) lt maxFetch
    (LastRunMap.single lt st) firstFetchTime firstFetchTime

/-! ### Well-formedness predicates and the loop invariant -/

/-- Every event's category timestamp field is present and parses. -/
def wfEvents (lt : LogType) (B : List Event) : Prop :=
  ∀ e ∈ B, (tsKey lt e).isSome = true

/-- Timestamps are canonically formatted within `B` and against the bound
`lr0`: equal parsed keys force equal strings (Python compares the raw
strings on line 189 but the parsed datetimes on lines 202-211). -/
def canonicalTs (lt : LogType) (lr0 : String) (B : List Event) : Prop :=
  (∀ e ∈ B, ∀ e2 ∈ B, tsKey lt e = tsKey lt e2 →
    eventTimestamp lt e = eventTimestamp lt e2) ∧
  (∀ e ∈ B, tsKey lt e = parseTS lr0 → eventTimestamp lt e = some lr0)

/-- Bool form of the boundary test `event_timestamp == last_run_time`. -/
def isBoundary (lt : LogType) (lrt : String) (e : Event) : Bool :=
  eventTimestamp lt e = some lrt

/-- Invariant of the `for event in events` loop, relative to the entry
values `lrt` (with parsed key `dl`) and `ids0`. -/
structure LInv (lt : LogType) (lrt : String) (dl : Nat) (ids0 : List (Option String))
    (s : LoopSt) : Prop where
  nr : s.raised = false
  key : ∃ dn, parseTS s.newLastRunTime = some dn ∧ dl ≤ dn ∧
    ∀ e ∈ s.newEvents, ∀ t, tsKey lt e = some t → t ≤ dn
  src : s.newLastRunTime = lrt ∨
    ∃ e ∈ s.newEvents, eventTimestamp lt e = some s.newLastRunTime ∧
      e.eid ∈ s.newEventsIds
  nids : s.newEventsIds =
    (s.newEvents.filter (fun e => ! isBoundary lt lrt e)).map Event.eid
  bids : s.lastRunIds =
    ids0 ++ (s.newEvents.filter (isBoundary lt lrt)).map Event.eid
  nodups : ∀ e : Event, eventTimestamp lt e = some lrt → e.eid ∈ ids0 →
    e ∉ s.newEvents

/-! ### Shared concrete inputs for witnesses and counterexamples -/

/-- Concrete instant `T` of the spec's boundary example. -/
def ts00 : String := "2024-05-01T10:00:00"

/-- `T` plus one second. -/
def ts01 : String := "2024-05-01T10:00:01"

/-- `T` plus two seconds. -/
def ts02 : String := "2024-05-01T10:00:02"

/-- An Investigate record with the given id and `created_timestamp`. -/
def mkInv (i : String) (t : String) : Event :=
  { eid := some i, createdTimestamp := some t, incidentStartTime := none }

/-- An Incident record with the given id and `incident_start_time`. -/
def mkInc (i : String) (t : String) : Event :=
  { eid := some i, createdTimestamp := none, incidentStartTime := some t }

/-- Prior state of the spec's boundary example: `{last_seen: T, seen_ids: {"a"}}`. -/
def priorT : Option LastRun := some { ids := some [some "a"], lastRun := some ts00 }

/-- Batch of the spec's boundary example: `[{id:"a",t:T},{id:"b",t:T},{id:"c",t:T+1}]`. -/
def batchT : List Event := [mkInv "a" ts00, mkInv "b" ts00, mkInv "c" ts01]

/-- An Investigate fetcher whose first page succeeds with one record and
whose second page fails (a mid-pagination network fault). -/
def failingPage2Fetcher : Fetcher := fun _ token =>
  if token = "" then .ok ([mkInv "p1" ts01], some "page2") else .error ()

/-- An Incident fetcher answering with a single complete page. -/
def okIncidentFetcher : Fetcher := fun _ token =>
  if token = "" then .ok ([mkInc "q1" ts01], none) else .ok ([], none)

/-- The per-category fetchers of the partial-failure scenario. -/
def mixedFetchers : LogType → Fetcher
  | .investigate => failingPage2Fetcher
  | .incident => okIncidentFetcher

/-! ## Basic lemmas -/

theorem parseTS_empty_none : parseTS "" = none := rfl

theorem ne_empty_of_parseTS {s : String} {d : Nat} (h : parseTS s = some d) :
    s ≠ "" := by
  intro hs
  rw [hs, parseTS_empty_none] at h
  exact Option.noConfusion h

theorem dedupLoop_nil (lt : LogType) (lrt : String) (limit n0 : Nat) (s : LoopSt) :
    dedupLoop lt lrt limit n0 [] s = s := rfl

theorem dedupLoop_cons (lt : LogType) (lrt : String) (limit n0 : Nat)
    (e : Event) (B : List Event) (s : LoopSt) :
    dedupLoop lt lrt limit n0 (e :: B) s =
      dedupLoop lt lrt limit n0 B (dedupStep lt lrt limit n0 s e) := rfl

theorem advanceNewer_cases (lt : LogType) (s : LoopSt) (e : Event) :
    ∃ (b : Bool) (t : String),
      advanceNewer lt s e =
        { s with newEvents := s.newEvents ++ [e],
                 newEventsIds := s.newEventsIds ++ [e.eid],
                 newLastRunTime := t, raised := b } := by
  cases h1 : parseTS s.newLastRunTime with
  | none => exact ⟨true, s.newLastRunTime, by simp [advanceNewer, acceptNewer, h1]⟩
  | some d1 =>
    cases h2 : eventTimestamp lt e with
    | none => exact ⟨true, s.newLastRunTime, by simp [advanceNewer, acceptNewer, h1, h2]⟩
    | some tstr =>
      cases h3 : parseTS tstr with
      | none => exact ⟨true, s.newLastRunTime, by simp [advanceNewer, acceptNewer, h1, h2, h3]⟩
      | some d2 =>
        by_cases h : d1 < d2
        · exact ⟨s.raised, tstr, by simp [advanceNewer, acceptNewer, h1, h2, h3, h]⟩
        · exact ⟨s.raised, s.newLastRunTime, by simp [advanceNewer, acceptNewer, h1, h2, h3, h]⟩

/-- Every outcome of one loop iteration: unchanged state, boundary
acceptance, or newer-branch acceptance (with possible raise / advance). -/
theorem dedupStep_cases (lt : LogType) (lrt : String) (limit n0 : Nat)
    (s : LoopSt) (e : Event) :
    dedupStep lt lrt limit n0 s e = s ∨
    dedupStep lt lrt limit n0 s e =
      { s with newEvents := s.newEvents ++ [e],
               lastRunIds := s.lastRunIds ++ [e.eid] } ∨
    ∃ (b : Bool) (t : String),
      dedupStep lt lrt limit n0 s e =
        { s with newEvents := s.newEvents ++ [e],
                 newEventsIds := s.newEventsIds ++ [e.eid],
                 newLastRunTime := t, raised := b } := by
  unfold dedupStep
  by_cases hr : s.raised = true
  · simp [hr]
  · simp only [hr, if_false, Bool.false_eq_true]
    by_cases hb : s.newEvents.length + n0 < limit
    · simp only [hb, if_true]
      by_cases ht : eventTimestamp lt e = some lrt
      · rw [if_pos ht]
        by_cases hm : e.eid ∈ s.lastRunIds
        · rw [if_pos hm]; exact Or.inl rfl
        · rw [if_neg hm]
          exact Or.inr (Or.inl (by simp_all [acceptBoundary]))
      · rw [if_neg ht]
        exact Or.inr (Or.inr (advanceNewer_cases lt s e))
    · simp [hb]

theorem dedupStep_newEvents_mono (lt : LogType) (lrt : String) (limit n0 : Nat)
    (s : LoopSt) (e : Event) :
    s.newEvents.Sublist (dedupStep lt lrt limit n0 s e).newEvents := by
  rcases dedupStep_cases lt lrt limit n0 s e with h | h | ⟨b, t, h⟩ <;>
    rw [h] <;> first
      | exact List.Sublist.refl _
      | exact List.sublist_append_left _ _

theorem dedupStep_newEvents_bound (lt : LogType) (lrt : String) (limit n0 : Nat)
    (s : LoopSt) (e : Event) :
    (dedupStep lt lrt limit n0 s e).newEvents.Sublist (s.newEvents ++ [e]) := by
  rcases dedupStep_cases lt lrt limit n0 s e with h | h | ⟨b, t, h⟩ <;>
    rw [h] <;> exact List.sublist_append_left _ _

theorem dedupStep_lastRunIds_mono (lt : LogType) (lrt : String) (limit n0 : Nat)
    (s : LoopSt) (e : Event) :
    s.lastRunIds.Sublist (dedupStep lt lrt limit n0 s e).lastRunIds := by
  rcases dedupStep_cases lt lrt limit n0 s e with h | h | ⟨b, t, h⟩ <;>
    rw [h] <;> first
      | exact List.Sublist.refl _
      | exact List.sublist_append_left _ _

theorem dedupLoop_newEvents_mono (lt : LogType) (lrt : String) (limit n0 : Nat)
    (B : List Event) (s : LoopSt) :
    s.newEvents.Sublist (dedupLoop lt lrt limit n0 B s).newEvents := by
  induction B generalizing s with
  | nil => exact List.Sublist.refl _
  | cons e B ih =>
    rw [dedupLoop_cons]
    exact (dedupStep_newEvents_mono lt lrt limit n0 s e).trans (ih _)

theorem dedupLoop_newEvents_bound (lt : LogType) (lrt : String) (limit n0 : Nat)
    (B : List Event) (s : LoopSt) :
    (dedupLoop lt lrt limit n0 B s).newEvents.Sublist (s.newEvents ++ B) := by
  induction B generalizing s with
  | nil => rw [dedupLoop_nil]; simp
  | cons e B ih =>
    rw [dedupLoop_cons]
    refine (ih _).trans ?_
    have h1 := (dedupStep_newEvents_bound lt lrt limit n0 s e).append_right B
    simpa using h1

theorem dedupLoop_lastRunIds_mono (lt : LogType) (lrt : String) (limit n0 : Nat)
    (B : List Event) (s : LoopSt) :
    s.lastRunIds.Sublist (dedupLoop lt lrt limit n0 B s).lastRunIds := by
  induction B generalizing s with
  | nil => exact List.Sublist.refl _
  | cons e B ih =>
    rw [dedupLoop_cons]
    exact (dedupStep_lastRunIds_mono lt lrt limit n0 s e).trans (ih _)

theorem dedupStep_of_nobudget {lt : LogType} {lrt : String} {limit n0 : Nat}
    {s : LoopSt} (e : Event) (hr : s.raised = false)
    (hb : ¬ s.newEvents.length + n0 < limit) :
    dedupStep lt lrt limit n0 s e = s := by
  simp [dedupStep, hr, hb]

theorem dedupStep_boundary_dup {lt : LogType} {lrt : String} {limit n0 : Nat}
    {s : LoopSt} {e : Event} (hr : s.raised = false)
    (hb : s.newEvents.length + n0 < limit)
    (ht : eventTimestamp lt e = some lrt) (hm : e.eid ∈ s.lastRunIds) :
    dedupStep lt lrt limit n0 s e = s := by
  simp [dedupStep, hr, hb, ht, hm]

theorem dedupStep_boundary_new {lt : LogType} {lrt : String} {limit n0 : Nat}
    {s : LoopSt} {e : Event} (hr : s.raised = false)
    (hb : s.newEvents.length + n0 < limit)
    (ht : eventTimestamp lt e = some lrt) (hm : e.eid ∉ s.lastRunIds) :
    dedupStep lt lrt limit n0 s e = acceptBoundary s e := by
  simp [dedupStep, hr, hb, ht, hm]

theorem dedupStep_newer {lt : LogType} {lrt : String} {limit n0 : Nat}
    {s : LoopSt} {e : Event} (hr : s.raised = false)
    (hb : s.newEvents.length + n0 < limit)
    (ht : ¬ eventTimestamp lt e = some lrt) :
    dedupStep lt lrt limit n0 s e = advanceNewer lt s e := by
  simp [dedupStep, hr, hb, ht]

theorem advanceNewer_eval {lt : LogType} {s : LoopSt} {e : Event}
    {d1 d2 : Nat} {tstr : String} (hd1 : parseTS s.newLastRunTime = some d1)
    (hts : eventTimestamp lt e = some tstr) (hd2 : parseTS tstr = some d2) :
    advanceNewer lt s e =
      if d1 < d2 then { acceptNewer s e with newLastRunTime := tstr }
      else acceptNewer s e := by
  simp [advanceNewer, hd1, hts, hd2]

theorem tsKey_of_parts {lt : LogType} {e : Event} {tstr : String} {d : Nat}
    (hts : eventTimestamp lt e = some tstr) (hd : parseTS tstr = some d) :
    tsKey lt e = some d := by
  simp [tsKey, hts, hd]

theorem exists_parts_of_tsKey {lt : LogType} {e : Event}
    (h : (tsKey lt e).isSome = true) :
    ∃ tstr d, eventTimestamp lt e = some tstr ∧ parseTS tstr = some d := by
  unfold tsKey at h
  cases hts : eventTimestamp lt e with
  | none => rw [hts] at h; simp at h
  | some tstr =>
    rw [hts] at h
    cases hd : parseTS tstr with
    | none => rw [Option.some_bind, hd] at h; simp at h
    | some d => exact ⟨tstr, d, rfl, hd⟩

theorem dedupStep_length (lt : LogType) (lrt : String) (limit n0 : Nat)
    (s : LoopSt) (e : Event) :
    (dedupStep lt lrt limit n0 s e).newEvents.length ≤ s.newEvents.length + 1 := by
  have h := (dedupStep_newEvents_bound lt lrt limit n0 s e).length_le
  simpa using h

/-! ## The loop invariant is preserved -/

theorem linv_init (lt : LogType) (lrt : String) (dl : Nat)
    (ids0 : List (Option String)) (hlrt : parseTS lrt = some dl) :
    LInv lt lrt dl ids0 (initSt ids0 lrt) := by
  refine ⟨rfl, ⟨dl, hlrt, Nat.le_refl dl, ?_⟩, Or.inl rfl, rfl, by simp [initSt], ?_⟩
  · intro e he; simp [initSt] at he
  · intro e _ _ he; simp [initSt] at he

theorem linv_step {lt : LogType} {lrt : String} {dl : Nat}
    {ids0 : List (Option String)} {limit n0 : Nat} {s : LoopSt} {e : Event}
    (hlrt : parseTS lrt = some dl) (hwf : (tsKey lt e).isSome = true)
    (h : LInv lt lrt dl ids0 s) :
    LInv lt lrt dl ids0 (dedupStep lt lrt limit n0 s e) := by
  obtain ⟨dn, hdn, hdl, hmax⟩ := h.key
  by_cases hb : s.newEvents.length + n0 < limit
  · by_cases ht : eventTimestamp lt e = some lrt
    · by_cases hm : e.eid ∈ s.lastRunIds
      · rw [dedupStep_boundary_dup h.nr hb ht hm]; exact h
      · rw [dedupStep_boundary_new h.nr hb ht hm]
        refine ⟨h.nr, ⟨dn, hdn, hdl, ?_⟩, ?_, ?_, ?_, ?_⟩
        · intro e2 he2 t ht2
          simp only [acceptBoundary, List.mem_append, List.mem_singleton] at he2
          rcases he2 with he2 | rfl
          · exact hmax e2 he2 t ht2
          · rw [tsKey_of_parts ht hlrt] at ht2
            exact le_of_eq (Option.some_injective _ ht2.symm) |>.trans hdl
        · rcases h.src with hsrc | ⟨e2, he2, h1, h2⟩
          · exact Or.inl hsrc
          · exact Or.inr ⟨e2, by simp [acceptBoundary, he2], h1, h2⟩
        · simp only [acceptBoundary, List.filter_append]
          rw [h.nids]
          simp [isBoundary, ht]
        · simp only [acceptBoundary, List.filter_append]
          rw [h.bids]
          simp [isBoundary, ht, List.append_assoc]
        · intro e2 ht2 hin2
          simp only [acceptBoundary, List.mem_append, List.mem_singleton]
          rintro (he2 | rfl)
          · exact h.nodups e2 ht2 hin2 he2
          · refine hm ?_
            rw [h.bids]
            exact List.mem_append_left _ hin2
    · rw [dedupStep_newer h.nr hb ht]
      obtain ⟨tstr, d2, hts, hd2⟩ := exists_parts_of_tsKey hwf
      rw [advanceNewer_eval hdn hts hd2]
      by_cases hcmp : dn < d2
      · rw [if_pos hcmp]
        refine ⟨h.nr, ⟨d2, hd2, hdl.trans (Nat.le_of_lt hcmp), ?_⟩, ?_, ?_, ?_, ?_⟩
        · intro e2 he2 t ht2
          simp only [acceptNewer, List.mem_append, List.mem_singleton] at he2
          rcases he2 with he2 | rfl
          · exact (hmax e2 he2 t ht2).trans (Nat.le_of_lt hcmp)
          · rw [tsKey_of_parts hts hd2] at ht2
            exact le_of_eq (Option.some_injective _ ht2.symm)
        · refine Or.inr ⟨e, ?_, hts, ?_⟩
          · simp [acceptNewer]
          · simp [acceptNewer]
        · simp only [acceptNewer, List.filter_append]
          rw [h.nids]
          simp [isBoundary, ht]
        · simp only [acceptNewer, List.filter_append]
          rw [h.bids]
          simp [isBoundary, ht]
        · intro e2 ht2 hin2
          simp only [acceptNewer, List.mem_append, List.mem_singleton]
          rintro (he2 | rfl)
          · exact h.nodups e2 ht2 hin2 he2
          · exact ht ht2
      · rw [if_neg hcmp]
        refine ⟨h.nr, ⟨dn, hdn, hdl, ?_⟩, ?_, ?_, ?_, ?_⟩
        · intro e2 he2 t ht2
          simp only [acceptNewer, List.mem_append, List.mem_singleton] at he2
          rcases he2 with he2 | rfl
          · exact hmax e2 he2 t ht2
          · rw [tsKey_of_parts hts hd2] at ht2
            rw [← Option.some_injective _ ht2]
            exact Nat.le_of_not_lt hcmp
        · rcases h.src with hsrc | ⟨e2, he2, h1, h2⟩
          · exact Or.inl hsrc
          · refine Or.inr ⟨e2, by simp [acceptNewer, he2], h1, ?_⟩
            simp [acceptNewer, h2]
        · simp only [acceptNewer, List.filter_append]
          rw [h.nids]
          simp [isBoundary, ht]
        · simp only [acceptNewer, List.filter_append]
          rw [h.bids]
          simp [isBoundary, ht]
        · intro e2 ht2 hin2
          simp only [acceptNewer, List.mem_append, List.mem_singleton]
          rintro (he2 | rfl)
          · exact h.nodups e2 ht2 hin2 he2
          · exact ht ht2
  · rw [dedupStep_of_nobudget e h.nr hb]; exact h

theorem linv_fold {lt : LogType} {lrt : String} {dl : Nat}
    {ids0 : List (Option String)} {limit n0 : Nat} {B : List Event} {s : LoopSt}
    (hlrt : parseTS lrt = some dl) (hwf : ∀ e ∈ B, (tsKey lt e).isSome = true)
    (h : LInv lt lrt dl ids0 s) :
    LInv lt lrt dl ids0 (dedupLoop lt lrt limit n0 B s) := by
  induction B generalizing s with
  | nil => exact h
  | cons e B ih =>
    rw [dedupLoop_cons]
    exact ih (fun e2 he2 => hwf e2 (List.mem_cons_of_mem e he2))
      (linv_step hlrt (hwf e (List.mem_cons_self e B)) h)

/-! ## Further loop lemmas -/

theorem dedupStep_of_raised {lt : LogType} {lrt : String} {limit n0 : Nat}
    {s : LoopSt} (e : Event) (hr : s.raised = true) :
    dedupStep lt lrt limit n0 s e = s := by
  simp [dedupStep, hr]

theorem dedupLoop_of_raised {lt : LogType} {lrt : String} {limit n0 : Nat}
    {B : List Event} {s : LoopSt} (hr : s.raised = true) :
    dedupLoop lt lrt limit n0 B s = s := by
  induction B with
  | nil => rfl
  | cons e B ih => rw [dedupLoop_cons, dedupStep_of_raised e hr]; exact ih

/-- With enough remaining budget, every event whose timestamp differs from
`last_run_time` is accepted (there is no id-based check on that branch). -/
theorem dedupLoop_accepts_newer {lt : LogType} {lrt : String} {dl : Nat}
    {ids0 : List (Option String)} {limit n0 : Nat} {B : List Event} {s : LoopSt}
    (hlrt : parseTS lrt = some dl) (hwf : ∀ e ∈ B, (tsKey lt e).isSome = true)
    (h : LInv lt lrt dl ids0 s)
    (hbud : s.newEvents.length + n0 + B.length ≤ limit) :
    ∀ e ∈ B, ¬ eventTimestamp lt e = some lrt →
      e ∈ (dedupLoop lt lrt limit n0 B s).newEvents := by
  induction B generalizing s with
  | nil => intro e he; exact absurd he (List.not_mem_nil e)
  | cons e0 B ih =>
    intro e he ht
    rw [dedupLoop_cons]
    have hb : s.newEvents.length + n0 < limit := by
      simp only [List.length_cons] at hbud
      omega
    have hstep : LInv lt lrt dl ids0 (dedupStep lt lrt limit n0 s e0) :=
      linv_step hlrt (hwf e0 (List.mem_cons_self e0 B)) h
    have hlen := dedupStep_length lt lrt limit n0 s e0
    have hbud2 : (dedupStep lt lrt limit n0 s e0).newEvents.length + n0 + B.length ≤ limit := by
      simp only [List.length_cons] at hbud
      omega
    rcases List.mem_cons.mp he with rfl | he2
    · -- the current event is the target: it is accepted on this step
      have hmem : e ∈ (dedupStep lt lrt limit n0 s e).newEvents := by
        rw [dedupStep_newer h.nr hb ht]
        obtain ⟨tstr, d2, hts, hd2⟩ :=
          exists_parts_of_tsKey (hwf e (List.mem_cons_self e B))
        obtain ⟨dn, hdn, _, _⟩ := h.key
        rw [advanceNewer_eval hdn hts hd2]
        by_cases hcmp : dn < d2
        · rw [if_pos hcmp]; simp [acceptNewer]
        · rw [if_neg hcmp]; simp [acceptNewer]
      exact (dedupLoop_newEvents_mono lt lrt limit n0 B _).subset hmem
    · exact ih (fun e2 h2 => hwf e2 (List.mem_cons_of_mem e0 h2)) hstep hbud2 e he2 ht

/-- With enough remaining budget, the id of every boundary-timestamp event
ends up in the running `last_run_ids` list (it is either already there or
gets appended on acceptance). -/
theorem dedupLoop_boundary_ids {lt : LogType} {lrt : String} {dl : Nat}
    {ids0 : List (Option String)} {limit n0 : Nat} {B : List Event} {s : LoopSt}
    (hlrt : parseTS lrt = some dl) (hwf : ∀ e ∈ B, (tsKey lt e).isSome = true)
    (h : LInv lt lrt dl ids0 s)
    (hbud : s.newEvents.length + n0 + B.length ≤ limit) :
    ∀ e ∈ B, eventTimestamp lt e = some lrt →
      e.eid ∈ (dedupLoop lt lrt limit n0 B s).lastRunIds := by
  induction B generalizing s with
  | nil => intro e he; exact absurd he (List.not_mem_nil e)
  | cons e0 B ih =>
    intro e he ht
    rw [dedupLoop_cons]
    have hb : s.newEvents.length + n0 < limit := by
      simp only [List.length_cons] at hbud
      omega
    have hstep : LInv lt lrt dl ids0 (dedupStep lt lrt limit n0 s e0) :=
      linv_step hlrt (hwf e0 (List.mem_cons_self e0 B)) h
    have hlen := dedupStep_length lt lrt limit n0 s e0
    have hbud2 : (dedupStep lt lrt limit n0 s e0).newEvents.length + n0 + B.length ≤ limit := by
      simp only [List.length_cons] at hbud
      omega
    rcases List.mem_cons.mp he with rfl | he2
    · have hmem : e.eid ∈ (dedupStep lt lrt limit n0 s e).lastRunIds := by
        by_cases hm : e.eid ∈ s.lastRunIds
        · exact (dedupStep_lastRunIds_mono lt lrt limit n0 s e).subset hm
        · rw [dedupStep_boundary_new h.nr hb ht hm]
          simp [acceptBoundary]
      exact (dedupLoop_lastRunIds_mono lt lrt limit n0 B _).subset hmem
    · exact ih (fun e2 h2 => hwf e2 (List.mem_cons_of_mem e0 h2)) hstep hbud2 e he2 ht

/-- A batch consisting entirely of already-recorded boundary records leaves
the loop state untouched. -/
theorem dedupLoop_all_dups {lt : LogType} {lrt : String} {limit n0 : Nat}
    {B : List Event} {s : LoopSt}
    (hall : ∀ e ∈ B, eventTimestamp lt e = some lrt ∧ e.eid ∈ s.lastRunIds) :
    dedupLoop lt lrt limit n0 B s = s := by
  induction B with
  | nil => rfl
  | cons e0 B ih =>
    obtain ⟨ht, hm⟩ := hall e0 (List.mem_cons_self e0 B)
    have hstep : dedupStep lt lrt limit n0 s e0 = s := by
      cases hr : s.raised with
      | true => exact dedupStep_of_raised e0 hr
      | false =>
        by_cases hb : s.newEvents.length + n0 < limit
        · exact dedupStep_boundary_dup hr hb ht hm
        · exact dedupStep_of_nobudget e0 hr hb
    rw [dedupLoop_cons, hstep]
    exact ih (fun e2 h2 => hall e2 (List.mem_cons_of_mem e0 h2))

/-- With enough remaining budget, a record whose timestamp field is missing
causes the loop to end in the raised state: it reaches the "newer" branch
(`None` is never string-equal to `last_run_time`), where
`datetime.strptime(None, ...)` raises. -/
theorem dedupLoop_missing_ts_raises {lt : LogType} {lrt : String}
    {limit n0 : Nat} {B : List Event} {s : LoopSt}
    (hbud : s.newEvents.length + n0 + B.length ≤ limit) :
    (∃ e ∈ B, eventTimestamp lt e = none) →
      (dedupLoop lt lrt limit n0 B s).raised = true := by
  induction B generalizing s with
  | nil => rintro ⟨e, he, -⟩; exact absurd he (List.not_mem_nil e)
  | cons e0 B ih =>
    rintro ⟨e, he, hnone⟩
    rw [dedupLoop_cons]
    cases hr : s.raised with
    | true =>
      rw [dedupStep_of_raised e0 hr, dedupLoop_of_raised hr]
      exact hr
    | false =>
      have hb : s.newEvents.length + n0 < limit := by
        simp only [List.length_cons] at hbud
        omega
      have hlen := dedupStep_length lt lrt limit n0 s e0
      have hbud2 : (dedupStep lt lrt limit n0 s e0).newEvents.length + n0 + B.length ≤ limit := by
        simp only [List.length_cons] at hbud
        omega
      rcases List.mem_cons.mp he with rfl | he2
      · have hstep : (dedupStep lt lrt limit n0 s e).raised = true := by
          have ht : ¬ eventTimestamp lt e = some lrt := by
            rw [hnone]; exact fun hc => Option.noConfusion hc
          rw [dedupStep_newer hr hb ht]
          unfold advanceNewer
          rw [hnone]
          cases parseTS s.newLastRunTime <;> rfl
        rw [dedupLoop_of_raised hstep]
        exact hstep
      · exact ih hbud2 ⟨e, he2, hnone⟩

/-! ## Facts about `dedup` -/

theorem dedup_of_ne_nil {st : Option LastRun} {B : List Event} {lt : LogType}
    {limit n0 : Nat} {lf : String} (hne : B ≠ []) :
    dedup st B lt limit n0 lf =
      dedupPost st (effectiveLastRunTime st lf)
        (dedupLoop lt (effectiveLastRunTime st lf) limit n0 B
          (initSt ((st.bind (·.ids)).getD []) (effectiveLastRunTime st lf))) := by
  simp [dedup, hne]

theorem dedupPost_newEvents (st : Option LastRun) (lrt : String) (fin : LoopSt) :
    (dedupPost st lrt fin).newEvents = fin.newEvents := by
  unfold dedupPost raisedRet
  cases fin.raised
  · cases parseTS lrt
    · rfl
    · cases parseTS fin.newLastRunTime <;> rfl
  · rfl

theorem dedupPost_newEventsIds (st : Option LastRun) (lrt : String) (fin : LoopSt) :
    (dedupPost st lrt fin).newEventsIds = fin.newEventsIds := by
  unfold dedupPost raisedRet
  cases fin.raised
  · cases parseTS lrt
    · rfl
    · cases parseTS fin.newLastRunTime <;> rfl
  · rfl

theorem dedupPost_priorIdsAfter (st : Option LastRun) (lrt : String) (fin : LoopSt) :
    (dedupPost st lrt fin).priorIdsAfter =
      (st.bind (·.ids)).map (fun _ => fin.lastRunIds) := by
  unfold dedupPost raisedRet
  cases fin.raised
  · cases parseTS lrt
    · rfl
    · cases parseTS fin.newLastRunTime <;> rfl
  · rfl

theorem dedupPost_eval {st : Option LastRun} {lrt : String} {fin : LoopSt}
    {dl dn : Nat} (hr : fin.raised = false) (hdl : parseTS lrt = some dl)
    (hdn : parseTS fin.newLastRunTime = some dn) :
    dedupPost st lrt fin =
      { raised := false, newEvents := fin.newEvents,
        newLastRun :=
          { ids := some (if dl < dn ∧ fin.newEventsIds ≠ [] then fin.newEventsIds
                         else fin.newEventsIds ++ fin.lastRunIds),
            lastRun := some (if fin.newLastRunTime = "" then lrt
                             else fin.newLastRunTime) },
        newEventsIds := fin.newEventsIds, lastRunIdsFinal := fin.lastRunIds,
        priorIdsAfter := (st.bind (·.ids)).map (fun _ => fin.lastRunIds) } := by
  unfold dedupPost
  rw [hr, hdl, hdn]
  rfl

/-- The final loop state of a non-empty `dedup` call satisfies the loop
invariant (for parseable inputs), and the call does not raise. -/
theorem dedup_linv {st : Option LastRun} {B : List Event} {lt : LogType}
    (limit n0 : Nat) {lf : String} {dl : Nat}
    (hlrt : parseTS (effectiveLastRunTime st lf) = some dl)
    (hwf : ∀ e ∈ B, (tsKey lt e).isSome = true) :
    LInv lt (effectiveLastRunTime st lf) dl ((st.bind (·.ids)).getD [])
      (dedupLoop lt (effectiveLastRunTime st lf) limit n0 B
        (initSt ((st.bind (·.ids)).getD []) (effectiveLastRunTime st lf))) :=
  linv_fold hlrt hwf (linv_init lt _ dl _ hlrt)

theorem dedup_newEvents_sublist (st : Option LastRun) (B : List Event)
    (lt : LogType) (limit n0 : Nat) (lf : String) :
    (dedup st B lt limit n0 lf).newEvents.Sublist B := by
  by_cases hne : B = []
  · subst hne; simp [dedup]
  · rw [dedup_of_ne_nil hne, dedupPost_newEvents]
    have h := dedupLoop_newEvents_bound lt (effectiveLastRunTime st lf) limit n0 B
      (initSt ((st.bind (·.ids)).getD []) (effectiveLastRunTime st lf))
    simpa [initSt] using h

/-- A boundary-timestamp record whose id is already recorded in the prior
state is never returned. -/
theorem dedup_skips_recorded {st : Option LastRun} {B : List Event}
    {lt : LogType} {limit n0 : Nat} {lf : String} {dl : Nat} {e : Event}
    (hlrt : parseTS (effectiveLastRunTime st lf) = some dl)
    (hwf : ∀ e2 ∈ B, (tsKey lt e2).isSome = true)
    (ht : eventTimestamp lt e = some (effectiveLastRunTime st lf))
    (hin : e.eid ∈ (st.bind (·.ids)).getD []) :
    e ∉ (dedup st B lt limit n0 lf).newEvents := by
  by_cases hne : B = []
  · subst hne; simp [dedup]
  · rw [dedup_of_ne_nil hne, dedupPost_newEvents]
    exact (dedup_linv limit n0 hlrt hwf).nodups e ht hin

/-- The call does not raise, and the returned state has both keys set, with
a parseable last-run value at least as new as the effective prior one. -/
theorem dedup_returns {st : Option LastRun} {B : List Event} {lt : LogType}
    (limit n0 : Nat) {lf : String} {dl : Nat}
    (hlrt : parseTS (effectiveLastRunTime st lf) = some dl)
    (hwf : ∀ e ∈ B, (tsKey lt e).isSome = true) (hne : B ≠ []) :
    (dedup st B lt limit n0 lf).raised = false ∧
    ∃ lr1 dn1 idsl,
      (dedup st B lt limit n0 lf).newLastRun =
        { ids := some idsl, lastRun := some lr1 } ∧
      parseTS lr1 = some dn1 ∧ dl ≤ dn1 := by
  have hinv := dedup_linv limit n0 hlrt hwf
  obtain ⟨dn, hdn, hdl, hmax⟩ := hinv.key
  rw [dedup_of_ne_nil hne, dedupPost_eval hinv.nr hlrt hdn]
  refine ⟨rfl, _, dn, _, rfl, ?_, hdl⟩
  rw [if_neg (ne_empty_of_parseTS hdn)]
  exact hdn

/-- With enough budget, every record whose timestamp string differs from
the effective last-run time is returned as new — there is no id-based or
lower-bound check on that branch. -/
theorem dedup_accepts_newer {st : Option LastRun} {B : List Event}
    {lt : LogType} {limit n0 : Nat} {lf : String} {dl : Nat}
    (hlrt : parseTS (effectiveLastRunTime st lf) = some dl)
    (hwf : ∀ e ∈ B, (tsKey lt e).isSome = true)
    (hbud : n0 + B.length ≤ limit) :
    ∀ e ∈ B, ¬ eventTimestamp lt e = some (effectiveLastRunTime st lf) →
      e ∈ (dedup st B lt limit n0 lf).newEvents := by
  intro e he ht
  have hne : B ≠ [] := List.ne_nil_of_mem he
  rw [dedup_of_ne_nil hne, dedupPost_newEvents]
  refine dedupLoop_accepts_newer hlrt hwf (linv_init lt _ dl _ hlrt) ?_ e he ht
  simpa [initSt] using hbud

/-- The final `newEvents` of the underlying loop is a sublist of the batch. -/
theorem dedupLoop_init_sublist (st : Option LastRun) (B : List Event)
    (lt : LogType) (limit n0 : Nat) (lf : String) :
    (dedupLoop lt (effectiveLastRunTime st lf) limit n0 B
      (initSt ((st.bind (·.ids)).getD []) (effectiveLastRunTime st lf))).newEvents.Sublist
      B := by
  have h := dedupLoop_newEvents_bound lt (effectiveLastRunTime st lf) limit n0 B
    (initSt ((st.bind (·.ids)).getD []) (effectiveLastRunTime st lf))
  simpa [initSt] using h

/-- With enough budget, the returned state's id list covers the id of every
batch record carrying the returned last-run timestamp. -/
theorem dedup_ids_cover {st : Option LastRun} {B : List Event}
    {lt : LogType} (limit n0 : Nat) {lf : String} {dl : Nat}
    (hlrt : parseTS (effectiveLastRunTime st lf) = some dl)
    (hwf : ∀ e ∈ B, (tsKey lt e).isSome = true)
    (hbud : n0 + B.length ≤ limit) (hne : B ≠ []) :
    ∃ lr1 idsl,
      (dedup st B lt limit n0 lf).newLastRun =
        { ids := some idsl, lastRun := some lr1 } ∧
      ∀ e ∈ B, eventTimestamp lt e = some lr1 → e.eid ∈ idsl := by
  have hinv := dedup_linv limit n0 hlrt hwf
  obtain ⟨dn, hdn, hdl, hmax⟩ := hinv.key
  rw [dedup_of_ne_nil hne, dedupPost_eval hinv.nr hlrt hdn]
  simp only [if_neg (ne_empty_of_parseTS hdn)]
  refine ⟨_, _, rfl, ?_⟩
  intro e he hts
  set lrt := effectiveLastRunTime st lf with hlrtdef
  set fin := dedupLoop lt lrt limit n0 B (initSt ((st.bind (·.ids)).getD []) lrt)
    with hfin
  by_cases hbd : eventTimestamp lt e = some lrt
  · -- the record sits at the prior boundary; its id reaches `last_run_ids`
    have hid : e.eid ∈ fin.lastRunIds := by
      refine dedupLoop_boundary_ids hlrt hwf (linv_init lt _ dl _ hlrt) ?_ e he hbd
      simpa [initSt] using hbud
    have hlrteq : fin.newLastRunTime = lrt := by
      have := hbd.symm.trans hts
      exact (Option.some_injective _ this).symm
    by_cases hadv : dl < dn ∧ fin.newEventsIds ≠ []
    · exfalso
      rw [hlrteq, hlrt] at hdn
      have hdd := Option.some_injective _ hdn
      obtain ⟨hlt, -⟩ := hadv
      omega
    · rw [if_neg hadv]
      exact List.mem_append_right _ hid
  · -- the record was accepted on the "newer" branch, so its id is in
    -- `new_events_ids`, which is kept in the result in both branches
    have hacc : e ∈ fin.newEvents := by
      refine dedupLoop_accepts_newer hlrt hwf (linv_init lt _ dl _ hlrt) ?_ e he hbd
      simpa [initSt] using hbud
    have hid : e.eid ∈ fin.newEventsIds := by
      rw [hinv.nids]
      refine List.mem_map.mpr ⟨e, List.mem_filter.mpr ⟨hacc, ?_⟩, rfl⟩
      simp [isBoundary, hbd]
    by_cases hadv : dl < dn ∧ fin.newEventsIds ≠ []
    · rw [if_pos hadv]; exact hid
    · rw [if_neg hadv]; exact List.mem_append_left _ hid

/-- Canonical-timestamp version of the state-resolution lemma: every
returned record's key is at most the returned last-run key, and a returned
record whose key reaches that bound carries exactly the returned last-run
timestamp and has its id recorded in the returned id list. -/
theorem dedup_recorded {st : Option LastRun} {B : List Event}
    {lt : LogType} (limit n0 : Nat) {lf : String} {dl : Nat}
    (hlrt : parseTS (effectiveLastRunTime st lf) = some dl)
    (hwf : ∀ e ∈ B, (tsKey lt e).isSome = true)
    (hcanon : ∀ e ∈ B, ∀ e2 ∈ B, tsKey lt e = tsKey lt e2 →
      eventTimestamp lt e = eventTimestamp lt e2)
    (hcanon0 : ∀ e ∈ B, tsKey lt e = some dl →
      eventTimestamp lt e = some (effectiveLastRunTime st lf))
    (hne : B ≠ []) :
    ∃ lr1 dn1 idsl,
      (dedup st B lt limit n0 lf).newLastRun =
        { ids := some idsl, lastRun := some lr1 } ∧
      parseTS lr1 = some dn1 ∧
      ∀ e ∈ (dedup st B lt limit n0 lf).newEvents, ∀ t, tsKey lt e = some t →
        t ≤ dn1 ∧ (dn1 ≤ t →
          eventTimestamp lt e = some lr1 ∧ e.eid ∈ idsl) := by
  have hinv := dedup_linv limit n0 hlrt hwf
  obtain ⟨dn, hdn, hdl, hmax⟩ := hinv.key
  have hsub := dedupLoop_init_sublist st B lt limit n0 lf
  rw [dedup_of_ne_nil hne, dedupPost_eval hinv.nr hlrt hdn]
  simp only [if_neg (ne_empty_of_parseTS hdn)]
  set lrt := effectiveLastRunTime st lf with hlrtdef
  set fin := dedupLoop lt lrt limit n0 B (initSt ((st.bind (·.ids)).getD []) lrt)
    with hfin
  by_cases hadv : dl < dn ∧ fin.newEventsIds ≠ []
  · rw [if_pos hadv]
    have hnltlrt : fin.newLastRunTime ≠ lrt := by
      intro hc
      rw [hc, hlrt] at hdn
      exact absurd (Option.some_injective _ hdn).symm (Nat.ne_of_gt hadv.1)
    obtain ⟨estar, hestar, htsstar, -⟩ :
        ∃ e2 ∈ fin.newEvents,
          eventTimestamp lt e2 = some fin.newLastRunTime ∧
            e2.eid ∈ fin.newEventsIds := by
      rcases hinv.src with hc | h2
      · exact absurd hc hnltlrt
      · exact h2
    refine ⟨fin.newLastRunTime, dn, fin.newEventsIds, rfl, hdn, ?_⟩
    intro e he t ht
    refine ⟨hmax e he t ht, ?_⟩
    intro hge
    have hteq : t = dn := Nat.le_antisymm (hmax e he t ht) hge
    have hkeystar : tsKey lt estar = some dn := by
      simp [tsKey, htsstar, hdn]
    have hkeye : tsKey lt e = some dn := by rw [← hteq]; exact ht
    have heB : e ∈ B := hsub.subset he
    have hestarB : estar ∈ B := hsub.subset hestar
    have hts : eventTimestamp lt e = eventTimestamp lt estar :=
      hcanon e heB estar hestarB (hkeye.trans hkeystar.symm)
    have htse : eventTimestamp lt e = some fin.newLastRunTime :=
      hts.trans htsstar
    refine ⟨htse, ?_⟩
    rw [hinv.nids]
    refine List.mem_map.mpr ⟨e, List.mem_filter.mpr ⟨he, ?_⟩, rfl⟩
    have : eventTimestamp lt e ≠ some lrt := by
      rw [htse]
      exact fun hc => hnltlrt (Option.some_injective _ hc)
    simp [isBoundary, this]
  · rw [if_neg hadv]
    have hnl : fin.newLastRunTime = lrt := by
      rcases hinv.src with hc | ⟨estar, hestar, htsstar, hidstar⟩
      · exact hc
      · by_cases hnids : fin.newEventsIds = []
        · rw [hnids] at hidstar
          exact absurd hidstar (List.not_mem_nil _)
        · have hnlt : ¬ dl < dn := fun hc => hadv ⟨hc, hnids⟩
          have hdneq : dn = dl := Nat.le_antisymm (Nat.le_of_not_lt hnlt) hdl
          have hkeystar : tsKey lt estar = some dl := by
            simp [tsKey, htsstar, hdn, hdneq]
          have := hcanon0 estar (hsub.subset hestar) hkeystar
          rw [htsstar] at this
          exact Option.some_injective _ this
    have hdneq : dn = dl := by
      rw [hnl, hlrt] at hdn
      exact (Option.some_injective _ hdn).symm
    rw [hnl]
    refine ⟨lrt, dl, _, rfl, hlrt, ?_⟩
    intro e he t ht
    have hte : t ≤ dl := by
      have := hmax e he t ht
      omega
    refine ⟨hte, ?_⟩
    intro hge
    have hteq : t = dl := Nat.le_antisymm hte hge
    have heB : e ∈ B := hsub.subset he
    have htse : eventTimestamp lt e = some lrt := by
      refine hcanon0 e heB ?_
      rw [ht, hteq]
    refine ⟨htse, ?_⟩
    have hid : e.eid ∈ fin.lastRunIds := by
      rw [hinv.bids]
      refine List.mem_append_right _ ?_
      refine List.mem_map.mpr ⟨e, List.mem_filter.mpr ⟨he, ?_⟩, rfl⟩
      simp [isBoundary, htse]
    exact List.mem_append_right _ hid

/-! ## Cycle evaluation -/

theorem LastRunMap.get_single (lt : LogType) (st : Option LastRun) :
    (LastRunMap.single lt st).get lt = st := by
  cases lt <;> rfl

theorem effectiveLastRunTime_some {o : Option (List (Option String))}
    {l : String} (lf : String) (hne : l ≠ "") :
    effectiveLastRunTime (some { ids := o, lastRun := some l }) lf = l := by
  simp [effectiveLastRunTime, hne]

theorem dedup_empty (st : Option LastRun) (lt : LogType) (limit n0 : Nat)
    (lf : String) :
    dedup st [] lt limit n0 lf =
      { raised := false, newEvents := [],
        newLastRun :=
          if effectiveLastRunTime st lf ≠ "" then
            { ids := none, lastRun := some (effectiveLastRunTime st lf) }
          else { ids := none, lastRun := none },
        newEventsIds := [], lastRunIdsFinal := (st.bind (·.ids)).getD [],
        priorIdsAfter := st.bind (·.ids) } := by
  simp [dedup]

theorem mem_fetchFrom {U : List Event} {lt : LogType} {b : String} {e : Event} :
    e ∈ fetchFrom U lt b ↔ e ∈ U ∧ atOrAbove lt b e = true :=
  List.mem_filter

theorem atOrAbove_eval {lt : LogType} {e : Event} {b : String} {t bk : Nat}
    (hkey : tsKey lt e = some t) (hb : parseTS b = some bk) :
    atOrAbove lt b e = true ↔ bk ≤ t := by
  simp [atOrAbove, hkey, hb]

theorem atOrAbove_key {lt : LogType} {e : Event} {b : String} {bk : Nat}
    (h : atOrAbove lt b e = true) (hb : parseTS b = some bk) :
    ∃ t, tsKey lt e = some t ∧ bk ≤ t := by
  unfold atOrAbove at h
  cases hkey : tsKey lt e with
  | none => rw [hkey] at h; simp at h
  | some t =>
    rw [hkey, hb] at h
    exact ⟨t, rfl, by simpa using h⟩

/-- Under the canonical single-page upstream, one collection cycle is one
fetch of everything at or above the bound, pushed through `dedup_by_id`. -/
theorem cycle_eq (U : List Event) (lt : LogType) (maxFetch : Nat)
    (o : Option (List (Option String))) (lr0 ff : String)
    (hpos : 0 < maxFetch) (hne : lr0 ≠ "")
    (hnr : (dedup (some { ids := o, lastRun := some lr0 }) (fetchFrom U lt lr0)
      lt maxFetch 0 lr0).raised = false) :
    cycle U lt maxFetch (some { ids := o, lastRun := some lr0 }) ff =
      .ok ((dedup (some { ids := o, lastRun := some lr0 }) (fetchFrom U lt lr0)
              lt maxFetch 0 lr0).newEvents,
           some (dedup (some { ids := o, lastRun := some lr0 }) (fetchFrom U lt lr0)
              lt maxFetch 0 lr0).newLastRun) := by
  unfold cycle getAllEventsForLogType
  rw [LastRunMap.get_single]
  simp only [Option.some_bind, if_neg hne]
  unfold getAllEventsLoop
  simp only [canonicalFetcher, List.length_nil, hpos, if_true, hnr,
    Bool.false_eq_true, if_false, List.nil_append]
  rfl

/-! ## Claim theorems -/

/-- C1: Exactly-once delivery across chained cycles.  For a single log
category with a fixed upstream `U` (unique record ids, canonically
formatted parseable timestamps, ascending order) answering each lower-bound
query with every record at or above the bound, two consecutive collection
cycles chained through the returned state never deliver the same record id
twice, and — when the first cycle's budget covers its whole batch — no
record with timestamp strictly greater than the prior last-seen timestamp
is omitted. -/
theorem chained_cycles_exactly_once
    (U : List Event) (lt : LogType) (limit1 limit2 : Nat)
    (o : Option (List (Option String))) (lr0 ff : String) (dl0 : Nat)
    (hlr0 : parseTS lr0 = some dl0)
    (hwfU : ∀ e ∈ U, (tsKey lt e).isSome = true)
    (hids : (U.map Event.eid).Nodup)
    (hsort : List.Pairwise
      (fun a b => (tsKey lt a).getD 0 ≤ (tsKey lt b).getD 0) U)
    (hcanon : ∀ e ∈ U, ∀ e2 ∈ U, tsKey lt e = tsKey lt e2 →
      eventTimestamp lt e = eventTimestamp lt e2)
    (hcanon0 : ∀ e ∈ U, tsKey lt e = some dl0 →
      eventTimestamp lt e = some lr0)
    (hpos1 : 0 < limit1) (hpos2 : 0 < limit2) :
    ∃ D1 S1 D2 S2,
      cycle U lt limit1 (some { ids := o, lastRun := some lr0 }) ff =
        .ok (D1, some S1) ∧
      cycle U lt limit2 (some S1) ff = .ok (D2, some S2) ∧
      ((D1 ++ D2).map Event.eid).Nodup ∧
      ((fetchFrom U lt lr0).length ≤ limit1 →
        ∀ r ∈ U, ∀ t, tsKey lt r = some t → dl0 < t → r ∈ D1) := by
  have hlr0ne : lr0 ≠ "" := ne_empty_of_parseTS hlr0
  have heff0 : effectiveLastRunTime (some { ids := o, lastRun := some lr0 }) lr0 = lr0 :=
    effectiveLastRunTime_some lr0 hlr0ne
  set B1 := fetchFrom U lt lr0 with hB1def
  have hwfB1 : ∀ e ∈ B1, (tsKey lt e).isSome = true :=
    fun e he => hwfU e (mem_fetchFrom.mp he).1
  by_cases hB1 : B1 = []
  · -- cycle 1 sees no records: nothing is delivered in either cycle
    have hd1 := dedup_empty (some { ids := o, lastRun := some lr0 }) lt limit1 0 lr0
    rw [heff0, if_pos hlr0ne] at hd1
    have hc1 := cycle_eq U lt limit1 o lr0 ff hpos1 hlr0ne
      (by rw [← hB1def, hB1, hd1])
    rw [← hB1def, hB1, hd1] at hc1
    have heff1 : effectiveLastRunTime
        (some { ids := none, lastRun := some lr0 }) lr0 = lr0 :=
      effectiveLastRunTime_some lr0 hlr0ne
    have hd2 := dedup_empty (some { ids := none, lastRun := some lr0 }) lt limit2 0 lr0
    rw [heff1, if_pos hlr0ne] at hd2
    have hc2 := cycle_eq U lt limit2 none lr0 ff hpos2 hlr0ne
      (by rw [← hB1def, hB1, hd2])
    rw [← hB1def, hB1, hd2] at hc2
    refine ⟨[], _, [], _, hc1, hc2, by simp, ?_⟩
    intro hample r hr t ht hgt
    exfalso
    have hmem : r ∈ B1 := mem_fetchFrom.mpr
      ⟨hr, (atOrAbove_eval ht hlr0).mpr (Nat.le_of_lt hgt)⟩
    rw [hB1] at hmem
    exact List.not_mem_nil r hmem
  · -- cycle 1 processes a non-empty batch
    have hlrt1 : parseTS (effectiveLastRunTime
        (some { ids := o, lastRun := some lr0 }) lr0) = some dl0 := by
      rw [heff0]; exact hlr0
    obtain ⟨hnr1, -⟩ := dedup_returns limit1 0 hlrt1 hwfB1 hB1
    obtain ⟨lr1, dn1, idsl, hS1, hlr1, hP1⟩ :=
      dedup_recorded limit1 0 hlrt1 hwfB1
        (fun e he e2 he2 =>
          hcanon e (mem_fetchFrom.mp he).1 e2 (mem_fetchFrom.mp he2).1)
        (fun e he ht => by
          rw [heff0]
          exact hcanon0 e (mem_fetchFrom.mp he).1 ht) hB1
    set r1 := dedup (some { ids := o, lastRun := some lr0 }) B1 lt limit1 0 lr0
      with hr1def
    have hc1 := cycle_eq U lt limit1 o lr0 ff hpos1 hlr0ne hnr1
    set D1 := r1.newEvents with hD1def
    have hlr1ne : lr1 ≠ "" := ne_empty_of_parseTS hlr1
    have heff2 : effectiveLastRunTime
        (some { ids := some idsl, lastRun := some lr1 }) lr1 = lr1 :=
      effectiveLastRunTime_some lr1 hlr1ne
    set B2 := fetchFrom U lt lr1 with hB2def
    have hwfB2 : ∀ e ∈ B2, (tsKey lt e).isSome = true :=
      fun e he => hwfU e (mem_fetchFrom.mp he).1
    have hlrt2 : parseTS (effectiveLastRunTime
        (some { ids := some idsl, lastRun := some lr1 }) lr1) = some dn1 := by
      rw [heff2]; exact hlr1
    have hD1U : ∀ e ∈ D1, e ∈ U := by
      intro e he
      have hsub := dedup_newEvents_sublist
        (some { ids := o, lastRun := some lr0 }) B1 lt limit1 0 lr0
      exact (mem_fetchFrom.mp (hsub.subset he)).1
    have hD1nodup : (D1.map Event.eid).Nodup := by
      have hsub := dedup_newEvents_sublist
        (some { ids := o, lastRun := some lr0 }) B1 lt limit1 0 lr0
      exact hids.sublist ((hsub.trans (List.filter_sublist U)).map Event.eid)
    -- a record delivered in cycle 1 that the second fetch would return
    -- again is recorded in the returned boundary state, so cycle 2 skips it
    have hkey : ∀ e ∈ D1, e ∈ B2 → eventTimestamp lt e = some lr1 ∧
        e.eid ∈ idsl := by
      intro e he1 he2
      obtain ⟨-, habove⟩ := mem_fetchFrom.mp he2
      obtain ⟨t, ht, hge⟩ := atOrAbove_key habove hlr1
      exact (hP1 e he1 t ht).2 hge
    by_cases hB2 : B2 = []
    · -- second fetch returns nothing: cycle 2 delivers nothing
      have hd2 := dedup_empty (some { ids := some idsl, lastRun := some lr1 })
        lt limit2 0 lr1
      rw [heff2, if_pos hlr1ne] at hd2
      have hc2 := cycle_eq U lt limit2 (some idsl) lr1 ff hpos2 hlr1ne
        (by rw [← hB2def, hB2, hd2])
      rw [← hB2def, hB2, hd2] at hc2
      rw [hS1] at hc1
      refine ⟨D1, _, [], _, hc1, hc2, ?_, ?_⟩
      · simpa using hD1nodup
      · intro hample r hr t ht hgt
        have hmem : r ∈ B1 := mem_fetchFrom.mpr
          ⟨hr, (atOrAbove_eval ht hlr0).mpr (Nat.le_of_lt hgt)⟩
        have hne2 : ¬ eventTimestamp lt r = some
            (effectiveLastRunTime (some { ids := o, lastRun := some lr0 }) lr0) := by
          rw [heff0]
          intro hc
          have : tsKey lt r = parseTS lr0 := by simp [tsKey, hc]
          rw [ht, hlr0] at this
          have := Option.some_injective _ this
          omega
        exact dedup_accepts_newer hlrt1 hwfB1 (by simpa using hample) r hmem hne2
    · -- second fetch returns records: dedup them against the new state
      obtain ⟨hnr2, -⟩ := dedup_returns limit2 0 hlrt2 hwfB2 hB2
      set r2 := dedup (some { ids := some idsl, lastRun := some lr1 }) B2
        lt limit2 0 lr1 with hr2def
      have hc2 := cycle_eq U lt limit2 (some idsl) lr1 ff hpos2 hlr1ne hnr2
      set D2 := r2.newEvents with hD2def
      have hD2U : ∀ e ∈ D2, e ∈ U := by
        intro e he
        have hsub := dedup_newEvents_sublist
          (some { ids := some idsl, lastRun := some lr1 }) B2 lt limit2 0 lr1
        exact (mem_fetchFrom.mp (hsub.subset he)).1
      have hD2nodup : (D2.map Event.eid).Nodup := by
        have hsub := dedup_newEvents_sublist
          (some { ids := some idsl, lastRun := some lr1 }) B2 lt limit2 0 lr1
        exact hids.sublist ((hsub.trans (List.filter_sublist U)).map Event.eid)
      have hdisj : ∀ x ∈ D1.map Event.eid, x ∉ D2.map Event.eid := by
        rintro x hx1 hx2
        obtain ⟨e1, he1, rfl⟩ := List.mem_map.mp hx1
        obtain ⟨e2, he2, heq⟩ := List.mem_map.mp hx2
        have hee : e2 = e1 :=
          List.inj_on_of_nodup_map hids (hD2U e2 he2) (hD1U e1 he1) heq
        subst hee
        have hsub2 := dedup_newEvents_sublist
          (some { ids := some idsl, lastRun := some lr1 }) B2 lt limit2 0 lr1
        have he2B : e2 ∈ B2 := hsub2.subset he2
        obtain ⟨hts2, hin2⟩ := hkey e2 he1 he2B
        refine dedup_skips_recorded hlrt2 hwfB2 ?_ ?_ he2
        · rw [heff2]; exact hts2
        · simpa using hin2
      rw [hS1] at hc1
      refine ⟨D1, _, D2, _, hc1, hc2, ?_, ?_⟩
      · rw [List.map_append, List.nodup_append]
        exact ⟨hD1nodup, hD2nodup, hdisj⟩
      · intro hample r hr t ht hgt
        have hmem : r ∈ B1 := mem_fetchFrom.mpr
          ⟨hr, (atOrAbove_eval ht hlr0).mpr (Nat.le_of_lt hgt)⟩
        have hne2 : ¬ eventTimestamp lt r = some
            (effectiveLastRunTime (some { ids := o, lastRun := some lr0 }) lr0) := by
          rw [heff0]
          intro hc
          have : tsKey lt r = parseTS lr0 := by simp [tsKey, hc]
          rw [ht, hlr0] at this
          have := Option.some_injective _ this
          omega
        exact dedup_accepts_newer hlrt1 hwfB1 (by simpa using hample) r hmem hne2

/-- C1 witness: a three-record upstream, a prior state at the oldest
record's instant with its id recorded, and ample budgets. -/
theorem chained_cycles_exactly_once_witness :
    parseTS ts00 = some 72761364000 ∧
    ∃ D1 S1 D2 S2,
      cycle [mkInv "a" ts00, mkInv "b" ts01, mkInv "c" ts02] .investigate 10
        (some { ids := some [some "a"], lastRun := some ts00 }) ts00 =
        .ok (D1, some S1) ∧
      cycle [mkInv "a" ts00, mkInv "b" ts01, mkInv "c" ts02] .investigate 10
        (some S1) ts00 = .ok (D2, some S2) ∧
      ((D1 ++ D2).map Event.eid).Nodup ∧
      ((fetchFrom [mkInv "a" ts00, mkInv "b" ts01, mkInv "c" ts02]
          .investigate ts00).length ≤ 10 →
        ∀ r ∈ [mkInv "a" ts00, mkInv "b" ts01, mkInv "c" ts02], ∀ t,
          tsKey .investigate r = some t → 72761364000 < t →
            r ∈ D1) :=
  ⟨by decide,
   chained_cycles_exactly_once
     [mkInv "a" ts00, mkInv "b" ts01, mkInv "c" ts02] .investigate 10 10
     (some [some "a"]) ts00 ts00 72761364000
     (by decide) (by decide) (by decide) (by decide) (by decide) (by decide)
     (by decide) (by decide)⟩

/-- C6: the spec's boundary example.  Prior state `{last_seen: T,
seen_ids: {"a"}}` with batch `[a@T, b@T, c@T+1]` and ample budget yields
exactly the records `b` then `c` and next state `{last_seen: T+1,
seen_ids: {"c"}}`. -/
theorem boundary_example_correct :
    (dedup priorT batchT .investigate 1000 0 ts00).newEvents =
      [mkInv "b" ts00, mkInv "c" ts01] ∧
    (dedup priorT batchT .investigate 1000 0 ts00).newLastRun =
      { ids := some [some "c"], lastRun := some ts01 } := by decide

/-- C7: the spec's budget-truncation example.  With budget 1 the same
batch yields only `b`, and the state keeps `last_seen = T` with id set
`{a, b}`. -/
theorem budget_truncation_example_correct :
    (dedup priorT batchT .investigate 1 0 ts00).newEvents = [mkInv "b" ts00] ∧
    (dedup priorT batchT .investigate 1 0 ts00).newLastRun =
      { ids := some [some "a", some "b"], lastRun := some ts00 } := by decide

/-- Helper shared by several claims: a record on the "newer" branch is
returned and its id lands in `new_events_ids`. -/
theorem dedup_newer_in_ids {st : Option LastRun} {B : List Event}
    {lt : LogType} {limit n0 : Nat} {lf : String} {dl : Nat}
    (hlrt : parseTS (effectiveLastRunTime st lf) = some dl)
    (hwf : ∀ e2 ∈ B, (tsKey lt e2).isSome = true)
    (hbud : n0 + B.length ≤ limit) {e : Event} (he : e ∈ B)
    (hne : ¬ eventTimestamp lt e = some (effectiveLastRunTime st lf)) :
    e ∈ (dedup st B lt limit n0 lf).newEvents ∧
    e.eid ∈ (dedup st B lt limit n0 lf).newEventsIds := by
  have hmem := dedup_accepts_newer hlrt hwf hbud e he hne
  refine ⟨hmem, ?_⟩
  have hneB : B ≠ [] := List.ne_nil_of_mem he
  have hinv := dedup_linv limit n0 hlrt hwf
  rw [dedup_of_ne_nil hneB, dedupPost_newEventsIds]
  rw [dedup_of_ne_nil hneB, dedupPost_newEvents] at hmem
  rw [hinv.nids]
  refine List.mem_map.mpr ⟨e, List.mem_filter.mpr ⟨hmem, ?_⟩, rfl⟩
  simp [isBoundary, hne]

/-- C10: `dedup_by_id` applies no lower-bound filter of its own.  While the
budget check passes, any record whose timestamp field is present, parses,
and is not string-equal to the effective last-run time — including records
strictly older than it — is unconditionally returned as new, with its id
appended to `new_events_ids`. -/
theorem no_lower_bound_filter {st : Option LastRun} {B : List Event}
    {lt : LogType} {limit n0 : Nat} {lf : String} {dl : Nat}
    (hlrt : parseTS (effectiveLastRunTime st lf) = some dl)
    (hwf : ∀ e2 ∈ B, (tsKey lt e2).isSome = true)
    (hbud : n0 + B.length ≤ limit) {e : Event} (he : e ∈ B)
    (hne : ¬ eventTimestamp lt e = some (effectiveLastRunTime st lf)) :
    (dedup st B lt limit n0 lf).raised = false ∧
    e ∈ (dedup st B lt limit n0 lf).newEvents ∧
    e.eid ∈ (dedup st B lt limit n0 lf).newEventsIds := by
  obtain ⟨hmem, hid⟩ := dedup_newer_in_ids hlrt hwf hbud he hne
  obtain ⟨hnr, -⟩ := dedup_returns limit n0 hlrt hwf (List.ne_nil_of_mem he)
  exact ⟨hnr, hmem, hid⟩

/-- C10 witness: a record strictly older than the stored last-run time is
still returned as new. -/
theorem no_lower_bound_filter_witness :
    parseTS (effectiveLastRunTime
      (some { ids := some [], lastRun := some ts01 }) ts01) = some 72761364001 ∧
    mkInv "d" ts00 ∈
      (dedup (some { ids := some [], lastRun := some ts01 })
        [mkInv "d" ts00] .investigate 10 0 ts01).newEvents ∧
    some "d" ∈
      (dedup (some { ids := some [], lastRun := some ts01 })
        [mkInv "d" ts00] .investigate 10 0 ts01).newEventsIds :=
  ⟨by decide,
   (@no_lower_bound_filter (some { ids := some [], lastRun := some ts01 })
     [mkInv "d" ts00] .investigate 10 0 ts01 72761364001
     (by decide) (by decide) (by decide) (mkInv "d" ts00)
     (by decide) (by decide)).2⟩

/-- C2 counterexample: running `dedup` a second time on the identical
batch of the spec's own boundary example, with the first run's returned
state, re-delivers the two boundary records instead of zero records. -/
theorem refetch_idempotence_cex :
    (dedup (some (dedup priorT batchT .investigate 1000 0 ts00).newLastRun)
        batchT .investigate 1000 0 ts00).newEvents =
      [mkInv "a" ts00, mkInv "b" ts00] ∧
    (dedup (some (dedup priorT batchT .investigate 1000 0 ts00).newLastRun)
        batchT .investigate 1000 0 ts00).newEvents ≠ [] := by decide

/-- C3 counterexample: after accepting `a@T+1` and `b@T+2`, the returned
state keeps both ids although the returned last-seen timestamp is `T+2`,
so the id set contains the id of a record whose timestamp differs from the
returned last-seen timestamp. -/
theorem boundary_ids_exact_cex :
    (dedup (some { ids := some [], lastRun := some ts00 })
        [mkInv "a" ts01, mkInv "b" ts02] .investigate 1000 0 ts00).newLastRun =
      { ids := some [some "a", some "b"], lastRun := some ts02 } ∧
    mkInv "a" ts01 ∈
      (dedup (some { ids := some [], lastRun := some ts00 })
        [mkInv "a" ts01, mkInv "b" ts02] .investigate 1000 0 ts00).newEvents ∧
    eventTimestamp .investigate (mkInv "a" ts01) = some ts01 ∧
    ts01 ≠ ts02 := by decide

/-- C5 counterexample: a record lacking its `_id` is not skipped — it is
returned as new and the null id joins the id set — while a record lacking
its timestamp aborts the whole call with an exception instead of being
skipped. -/
theorem malformed_record_cex :
    (dedup priorT
        [{ eid := none, createdTimestamp := some ts01, incidentStartTime := none }]
        .investigate 1000 0 ts00).newEvents =
      [{ eid := none, createdTimestamp := some ts01, incidentStartTime := none }] ∧
    (dedup priorT
        [{ eid := none, createdTimestamp := some ts01, incidentStartTime := none }]
        .investigate 1000 0 ts00).newLastRun.ids = some [none] ∧
    (dedup priorT
        [{ eid := some "x", createdTimestamp := none, incidentStartTime := none }]
        .investigate 1000 0 ts00).raised = true := by decide

/-- C8 counterexample: accepting the boundary record `b` appends to the
caller's stored ids list in place — after the call the prior state's list
is `["a", "b"]`, not the `["a"]` that was passed in. -/
theorem prior_state_mutation_cex :
    (dedup priorT [mkInv "b" ts00] .investigate 1000 0 ts00).priorIdsAfter =
      some [some "a", some "b"] ∧
    priorT.bind (·.ids) = some [some "a"] := by decide

/-- C9 counterexample: on an empty batch the returned state holds only the
`last_run` key — the boundary-id set of the prior state is dropped, not
carried forward. -/
theorem empty_batch_drops_ids_cex :
    (dedup priorT [] .investigate 1000 0 ts00).newLastRun =
      { ids := none, lastRun := some ts00 } ∧
    priorT.bind (·.ids) = some [some "a"] := by decide

theorem dedupPost_raised {st : Option LastRun} {lrt : String} {fin : LoopSt}
    (hr : fin.raised = true) : (dedupPost st lrt fin).raised = true := by
  simp [dedupPost, hr, raisedRet]

/-- C2 amended: re-fetch idempotence holds exactly in the degenerate case
where every record of the identical batch carries the first call's
returned last-seen timestamp: then the second call returns zero new
records and does not raise.  (In general the second call re-delivers every
record whose timestamp string differs from the updated last-seen
timestamp, as the counterexample shows.) -/
theorem refetch_idempotence_amended
    (st : Option LastRun) (B : List Event) (lt : LogType)
    (limit1 limit2 n02 : Nat) (lf lf2 : String) (dl : Nat) (lr1 : String)
    (hlrt : parseTS (effectiveLastRunTime st lf) = some dl)
    (hwf : ∀ e ∈ B, (tsKey lt e).isSome = true)
    (hbud : B.length ≤ limit1)
    (hS1 : (dedup st B lt limit1 0 lf).newLastRun.lastRun = some lr1)
    (hall : ∀ e ∈ B, eventTimestamp lt e = some lr1) :
    (dedup (some (dedup st B lt limit1 0 lf).newLastRun) B lt limit2 n02 lf2).raised
      = false ∧
    (dedup (some (dedup st B lt limit1 0 lf).newLastRun) B lt limit2 n02 lf2).newEvents
      = [] := by
  by_cases hne : B = []
  · subst hne
    rw [dedup_empty]
    constructor <;> rfl
  · obtain ⟨lr1c, idslc, hSc, hcov⟩ :=
      dedup_ids_cover limit1 0 hlrt hwf (by simpa using hbud) hne
    obtain ⟨-, lr1r, dn1, idslr, hSr, hparse, -⟩ :=
      dedup_returns limit1 0 hlrt hwf hne
    have hc : lr1c = lr1r ∧ idslc = idslr := by
      rw [hSc] at hSr
      have h1 := congrArg LastRun.ids hSr
      have h2 := congrArg LastRun.lastRun hSr
      simp only at h1 h2
      exact ⟨Option.some_injective _ h2, Option.some_injective _ h1⟩
    have hlr1 : lr1c = lr1 := by
      rw [hSc] at hS1
      simp only at hS1
      exact Option.some_injective _ hS1
    have hparse1 : parseTS lr1 = some dn1 := by
      rw [← hlr1, hc.1]; exact hparse
    have hne1 : lr1 ≠ "" := ne_empty_of_parseTS hparse1
    rw [hSc, hlr1]
    have heff : effectiveLastRunTime
        (some { ids := some idslc, lastRun := some lr1 }) lf2 = lr1 :=
      effectiveLastRunTime_some lf2 hne1
    have hloop : dedupLoop lt
        (effectiveLastRunTime (some { ids := some idslc, lastRun := some lr1 }) lf2)
        limit2 n02 B
        (initSt ((some (LastRun.mk (some idslc) (some lr1)) |>.bind (·.ids)).getD [])
          (effectiveLastRunTime (some { ids := some idslc, lastRun := some lr1 }) lf2)) =
        initSt ((some (LastRun.mk (some idslc) (some lr1)) |>.bind (·.ids)).getD [])
          (effectiveLastRunTime (some { ids := some idslc, lastRun := some lr1 }) lf2) := by
      refine dedupLoop_all_dups ?_
      intro e he
      refine ⟨?_, ?_⟩
      · rw [heff]; exact hall e he
      · simp only [initSt, Option.some_bind, Option.getD_some]
        refine hcov e he ?_
        rw [hlr1]
        exact hall e he
    rw [dedup_of_ne_nil hne, hloop]
    have hfin : parseTS (initSt ((some (LastRun.mk (some idslc) (some lr1)) |>.bind (·.ids)).getD [])
        (effectiveLastRunTime (some { ids := some idslc, lastRun := some lr1 }) lf2)).newLastRunTime
        = some dn1 := by
      simp only [initSt, heff]
      exact hparse1
    have heval := @dedupPost_eval
      (some { ids := some idslc, lastRun := some lr1 })
      (effectiveLastRunTime (some { ids := some idslc, lastRun := some lr1 }) lf2)
      (initSt ((some (LastRun.mk (some idslc) (some lr1)) |>.bind (·.ids)).getD [])
        (effectiveLastRunTime (some { ids := some idslc, lastRun := some lr1 }) lf2))
      dn1 dn1 rfl (by rw [heff]; exact hparse1) hfin
    rw [heval]
    constructor <;> rfl

/-- C3 amended: when at least one strictly-newer record (by parsed key) is
accepted, the returned last-run timestamp is the maximum timestamp among
the records accepted this cycle and is attained by one of them, and the
returned id set is the list of ids of every record accepted on the
strictly-newer branch — including ids of records at intermediate
timestamps below that maximum, as the counterexample shows. -/
theorem boundary_ids_amended
    (st : Option LastRun) (B : List Event) (lt : LogType) (limit n0 : Nat)
    (lf : String) (dl : Nat)
    (hlrt : parseTS (effectiveLastRunTime st lf) = some dl)
    (hwf : ∀ e ∈ B, (tsKey lt e).isSome = true)
    (hne : B ≠ [])
    (hsome : ∃ e ∈ (dedup st B lt limit n0 lf).newEvents,
      dl < (tsKey lt e).getD 0) :
    ∃ lr1 dn1,
      (dedup st B lt limit n0 lf).newLastRun.lastRun = some lr1 ∧
      parseTS lr1 = some dn1 ∧
      (∀ e ∈ (dedup st B lt limit n0 lf).newEvents, ∀ t,
        tsKey lt e = some t → t ≤ dn1) ∧
      (∃ e ∈ (dedup st B lt limit n0 lf).newEvents,
        eventTimestamp lt e = some lr1) ∧
      (dedup st B lt limit n0 lf).newLastRun.ids =
        some (((dedup st B lt limit n0 lf).newEvents.filter
          (fun e => ! isBoundary lt (effectiveLastRunTime st lf) e)).map
            Event.eid) := by
  have hinv := dedup_linv limit n0 hlrt hwf
  obtain ⟨dn, hdn, hdl, hmax⟩ := hinv.key
  obtain ⟨e0, he0, hgt0⟩ := hsome
  rw [dedup_of_ne_nil hne, dedupPost_newEvents] at he0
  set lrt := effectiveLastRunTime st lf with hlrtdef
  set fin := dedupLoop lt lrt limit n0 B
    (initSt ((st.bind (·.ids)).getD []) lrt) with hfindef
  obtain ⟨t0, hk0, hdlt0⟩ : ∃ t0, tsKey lt e0 = some t0 ∧ dl < t0 := by
    cases hk : tsKey lt e0 with
    | none =>
      rw [hk] at hgt0
      simp only [Option.getD_none] at hgt0
      exact absurd hgt0 (Nat.not_lt_zero dl)
    | some t =>
      rw [hk] at hgt0
      simp only [Option.getD_some] at hgt0
      exact ⟨t, rfl, hgt0⟩
  have hdldn : dl < dn := Nat.lt_of_lt_of_le hdlt0 (hmax e0 he0 t0 hk0)
  have hb0 : ¬ eventTimestamp lt e0 = some lrt := by
    intro hc
    have hkl : tsKey lt e0 = some dl := by simp [tsKey, hc, hlrt]
    rw [hk0] at hkl
    have := Option.some_injective _ hkl
    omega
  have hmem0 : e0.eid ∈ fin.newEventsIds := by
    rw [hinv.nids]
    refine List.mem_map.mpr ⟨e0, List.mem_filter.mpr ⟨he0, ?_⟩, rfl⟩
    simp [isBoundary, hb0]
  have hadv : dl < dn ∧ fin.newEventsIds ≠ [] :=
    ⟨hdldn, List.ne_nil_of_mem hmem0⟩
  rw [dedup_of_ne_nil hne, dedupPost_eval hinv.nr hlrt hdn]
  simp only [if_pos hadv, if_neg (ne_empty_of_parseTS hdn)]
  refine ⟨fin.newLastRunTime, dn, rfl, hdn, hmax, ?_, ?_⟩
  · rcases hinv.src with hc | ⟨estar, hestar, hts, -⟩
    · exfalso
      rw [hc, hlrt] at hdn
      have := Option.some_injective _ hdn
      omega
    · exact ⟨estar, hestar, hts⟩
  · rw [hinv.nids]

/-- C2 amended witness: a batch of two records sharing one strictly-newer
timestamp; the second identical-batch call returns zero records. -/
theorem refetch_idempotence_amended_witness :
    (dedup (some (dedup (some { ids := some [], lastRun := some ts00 })
        [mkInv "a" ts01, mkInv "b" ts01] .investigate 10 0 ts00).newLastRun)
      [mkInv "a" ts01, mkInv "b" ts01] .investigate 10 0 ts00).newEvents = [] :=
  (refetch_idempotence_amended (some { ids := some [], lastRun := some ts00 })
    [mkInv "a" ts01, mkInv "b" ts01] .investigate 10 10 0 ts00 ts00
    72761364000 ts01 (by decide) (by decide) (by decide) (by decide)
    (by decide)).2

/-- C3 amended witness: the counterexample input `[a@T+1, b@T+2]` satisfies
the amended resolution: last-seen becomes the maximum `T+2` and the id set
is the ids of all strictly-newer accepted records. -/
theorem boundary_ids_amended_witness :
    ∃ lr1 dn1,
      (dedup (some { ids := some [], lastRun := some ts00 })
        [mkInv "a" ts01, mkInv "b" ts02] .investigate 1000 0 ts00).newLastRun.lastRun
        = some lr1 ∧
      parseTS lr1 = some dn1 ∧
      (∀ e ∈ (dedup (some { ids := some [], lastRun := some ts00 })
        [mkInv "a" ts01, mkInv "b" ts02] .investigate 1000 0 ts00).newEvents, ∀ t,
        tsKey .investigate e = some t → t ≤ dn1) ∧
      (∃ e ∈ (dedup (some { ids := some [], lastRun := some ts00 })
        [mkInv "a" ts01, mkInv "b" ts02] .investigate 1000 0 ts00).newEvents,
        eventTimestamp .investigate e = some lr1) ∧
      (dedup (some { ids := some [], lastRun := some ts00 })
        [mkInv "a" ts01, mkInv "b" ts02] .investigate 1000 0 ts00).newLastRun.ids =
        some (((dedup (some { ids := some [], lastRun := some ts00 })
          [mkInv "a" ts01, mkInv "b" ts02] .investigate 1000 0 ts00).newEvents.filter
            (fun e => ! isBoundary .investigate
              (effectiveLastRunTime (some { ids := some [], lastRun := some ts00 }) ts00)
              e)).map Event.eid) :=
  boundary_ids_amended (some { ids := some [], lastRun := some ts00 })
    [mkInv "a" ts01, mkInv "b" ts02] .investigate 1000 0 ts00 72761364000
    (by decide) (by decide) (by decide) (by decide)

/-- C4 counterexample: with a fetcher that delivers one Investigate record
on page 1 and fails on page 2, the whole fetch run errors out — the
partial record and category state are discarded and the Incident category
(whose own collection would succeed and contribute a record) is never
collected. -/
theorem partial_failure_cex :
    fetchEventsCommand 5 mixedFetchers 10
      { investigate := none, incident := none } ts00 ts00 = .error () ∧
    getAllEventsForLogType 5 okIncidentFetcher .incident 10
      { investigate := none, incident := none } ts00 ts00 =
      .ok ([mkInc "q1" ts01],
           some { ids := some [some "q1"], lastRun := some ts01 }) :=
  ⟨rfl, rfl⟩

/-- C4 amended: a page-fetch failure (or any exception) inside either
category's collection propagates out of `get_all_events_for_log_type`
uncaught, so `fetch_events_command` aborts as a whole: no records or state
from any category are returned for that run. -/
theorem fetch_failure_aborts_run (fuel : Nat) (f : LogType → Fetcher)
    (maxFetch : Nat) (m : LastRunMap) (ff ffi : String)
    (h : getAllEventsForLogType fuel (f .investigate) .investigate maxFetch
          m ff ffi = .error () ∨
         getAllEventsForLogType fuel (f .incident) .incident maxFetch
          m ff ffi = .error ()) :
    fetchEventsCommand fuel f maxFetch m ff ffi = .error () := by
  unfold fetchEventsCommand
  rcases h with h | h
  · rw [h]; rfl
  · cases h1 : getAllEventsForLogType fuel (f .investigate) .investigate
      maxFetch m ff ffi with
    | error e => cases e; rfl
    | ok v => simp only [h]; rfl

/-- C4 amended witness: the concrete failing-page-2 scenario aborts the
whole run. -/
theorem fetch_failure_aborts_run_witness :
    getAllEventsForLogType 5 (mixedFetchers .investigate) .investigate 10
      { investigate := none, incident := none } ts00 ts00 = .error () ∧
    fetchEventsCommand 5 mixedFetchers 10
      { investigate := none, incident := none } ts00 ts00 = .error () :=
  ⟨rfl, fetch_failure_aborts_run 5 mixedFetchers 10
    { investigate := none, incident := none } ts00 ts00 (Or.inl rfl)⟩

/-- C5 amended: malformed records are not skipped.  A record lacking its
id field is accepted as new (under budget, with a parseable non-boundary
timestamp) and the null id is recorded in `new_events_ids`; a record
lacking its timestamp field makes the whole call raise (aborting the
category) once the budget check passes. -/
theorem malformed_record_amended :
    (∀ (st : Option LastRun) (B : List Event) (lt : LogType)
        (limit n0 : Nat) (lf : String) (dl : Nat) (e : Event),
      parseTS (effectiveLastRunTime st lf) = some dl →
      (∀ e2 ∈ B, (tsKey lt e2).isSome = true) →
      n0 + B.length ≤ limit → e ∈ B → e.eid = none →
      ¬ eventTimestamp lt e = some (effectiveLastRunTime st lf) →
      e ∈ (dedup st B lt limit n0 lf).newEvents ∧
        none ∈ (dedup st B lt limit n0 lf).newEventsIds) ∧
    (∀ (st : Option LastRun) (B : List Event) (lt : LogType)
        (limit n0 : Nat) (lf : String) (e : Event),
      n0 + B.length ≤ limit → e ∈ B → eventTimestamp lt e = none →
      (dedup st B lt limit n0 lf).raised = true) := by
  constructor
  · intro st B lt limit n0 lf dl e hlrt hwf hbud he hid hne
    obtain ⟨hmem, hids⟩ := dedup_newer_in_ids hlrt hwf hbud he hne
    rw [hid] at hids
    exact ⟨hmem, hids⟩
  · intro st B lt limit n0 lf e hbud he hnone
    have hne : B ≠ [] := List.ne_nil_of_mem he
    rw [dedup_of_ne_nil hne]
    refine dedupPost_raised ?_
    refine dedupLoop_missing_ts_raises ?_ ⟨e, he, hnone⟩
    simpa [initSt] using hbud

/-- C5 amended witness: the two malformed-record behaviors on concrete
inputs. -/
theorem malformed_record_amended_witness :
    (({ eid := none, createdTimestamp := some ts01,
        incidentStartTime := none } : Event) ∈
      (dedup priorT
        [{ eid := none, createdTimestamp := some ts01, incidentStartTime := none }]
        .investigate 1000 0 ts00).newEvents) ∧
    (dedup priorT
        [{ eid := some "x", createdTimestamp := none, incidentStartTime := none }]
        .investigate 1000 0 ts00).raised = true :=
  ⟨(malformed_record_amended.1 priorT
      [{ eid := none, createdTimestamp := some ts01, incidentStartTime := none }]
      .investigate 1000 0 ts00 72761364000
      { eid := none, createdTimestamp := some ts01, incidentStartTime := none }
      (by decide) (by decide) (by decide) (by decide) (by decide) (by decide)).1,
   malformed_record_amended.2 priorT
     [{ eid := some "x", createdTimestamp := none, incidentStartTime := none }]
     .investigate 1000 0 ts00
     { eid := some "x", createdTimestamp := none, incidentStartTime := none }
     (by decide) (by decide) (by decide)⟩

/-- C8 amended: `dedup_by_id` does mutate the caller's prior state in
place: when the `-ids` key is present, the stored list gains the id of
every accepted boundary-timestamp record (via the aliased
`last_run_ids.append`); the updated state itself is returned as a fresh
dict. -/
theorem prior_state_mutation_amended
    (st : Option LastRun) (B : List Event) (lt : LogType) (limit n0 : Nat)
    (lf : String) (dl : Nat)
    (hlrt : parseTS (effectiveLastRunTime st lf) = some dl)
    (hwf : ∀ e ∈ B, (tsKey lt e).isSome = true) :
    (dedup st B lt limit n0 lf).priorIdsAfter =
      (st.bind (·.ids)).map (fun l => l ++
        ((dedup st B lt limit n0 lf).newEvents.filter
          (isBoundary lt (effectiveLastRunTime st lf))).map Event.eid) := by
  by_cases hne : B = []
  · subst hne
    rw [dedup_empty]
    cases hids : st.bind (·.ids) with
    | none => rfl
    | some l => simp
  · have hinv := dedup_linv limit n0 hlrt hwf
    rw [dedup_of_ne_nil hne, dedupPost_priorIdsAfter, dedupPost_newEvents]
    rw [hinv.bids]
    cases hids : st.bind (·.ids) with
    | none => rfl
    | some l => simp [hids]

/-- C8 amended witness: accepting `b@T` appends to the caller's stored
list. -/
theorem prior_state_mutation_amended_witness :
    (dedup priorT [mkInv "b" ts00] .investigate 1000 0 ts00).priorIdsAfter =
      (priorT.bind (·.ids)).map (fun l => l ++
        ((dedup priorT [mkInv "b" ts00] .investigate 1000 0 ts00).newEvents.filter
          (isBoundary .investigate (effectiveLastRunTime priorT ts00))).map
            Event.eid) :=
  prior_state_mutation_amended priorT [mkInv "b" ts00] .investigate 1000 0
    ts00 72761364000 (by decide) (by decide)

/-- C9 amended: on an empty batch the returned state keeps only the
last-run time and drops the boundary-id set; on a non-empty batch in which
no record was accepted on the strictly-newer branch, the state keeps the
prior last-run time and carries the prior id list forward extended with
the ids of accepted same-timestamp records. -/
theorem empty_batch_state_amended :
    (∀ (st : Option LastRun) (lt : LogType) (limit n0 : Nat) (lf : String),
      effectiveLastRunTime st lf ≠ "" →
      (dedup st [] lt limit n0 lf).newLastRun =
        { ids := none, lastRun := some (effectiveLastRunTime st lf) }) ∧
    (∀ (st : Option LastRun) (B : List Event) (lt : LogType)
        (limit n0 : Nat) (lf : String) (dl : Nat),
      parseTS (effectiveLastRunTime st lf) = some dl →
      (∀ e ∈ B, (tsKey lt e).isSome = true) → B ≠ [] →
      (dedup st B lt limit n0 lf).newEventsIds = [] →
      (dedup st B lt limit n0 lf).newLastRun =
        { ids := some ((st.bind (·.ids)).getD [] ++
            (dedup st B lt limit n0 lf).newEvents.map Event.eid),
          lastRun := some (effectiveLastRunTime st lf) }) := by
  constructor
  · intro st lt limit n0 lf hne
    rw [dedup_empty]
    simp [hne]
  · intro st B lt limit n0 lf dl hlrt hwf hne hids
    have hinv := dedup_linv limit n0 hlrt hwf
    obtain ⟨dn, hdn, hdl, hmax⟩ := hinv.key
    rw [dedup_of_ne_nil hne, dedupPost_newEventsIds] at hids
    rw [dedup_of_ne_nil hne, dedupPost_eval hinv.nr hlrt hdn]
    have hfilter : (dedupLoop lt (effectiveLastRunTime st lf) limit n0 B
        (initSt ((st.bind (·.ids)).getD [])
          (effectiveLastRunTime st lf))).newEvents.filter
        (fun e => ! isBoundary lt (effectiveLastRunTime st lf) e) = [] := by
      have := hinv.nids
      rw [hids] at this
      exact (List.map_eq_nil_iff.mp this.symm)
    have hallb : ∀ e ∈ (dedupLoop lt (effectiveLastRunTime st lf) limit n0 B
        (initSt ((st.bind (·.ids)).getD [])
          (effectiveLastRunTime st lf))).newEvents,
        isBoundary lt (effectiveLastRunTime st lf) e = true := by
      intro e he
      have hnb := List.filter_eq_nil_iff.mp hfilter e he
      simpa using hnb
    have hnl : (dedupLoop lt (effectiveLastRunTime st lf) limit n0 B
        (initSt ((st.bind (·.ids)).getD [])
          (effectiveLastRunTime st lf))).newLastRunTime =
        effectiveLastRunTime st lf := by
      rcases hinv.src with hc | ⟨estar, -, -, hidstar⟩
      · exact hc
      · rw [hids] at hidstar
        exact absurd hidstar (List.not_mem_nil _)
    rw [hids, hinv.bids, hnl]
    have hself := List.filter_eq_self.mpr hallb
    rw [hself]
    simp [ite_self, ne_empty_of_parseTS hlrt]

/-- C9 amended witness: the empty-batch drop and the boundary-only
extension on concrete inputs. -/
theorem empty_batch_state_amended_witness :
    (dedup priorT [] .investigate 1000 0 ts00).newLastRun =
      { ids := none, lastRun := some (effectiveLastRunTime priorT ts00) } ∧
    (dedup priorT [mkInv "b" ts00] .investigate 1000 0 ts00).newLastRun =
      { ids := some ((priorT.bind (·.ids)).getD [] ++
          (dedup priorT [mkInv "b" ts00] .investigate 1000 0 ts00).newEvents.map
            Event.eid),
        lastRun := some (effectiveLastRunTime priorT ts00) } :=
  ⟨empty_batch_state_amended.1 priorT .investigate 1000 0 ts00 (by decide),
   empty_batch_state_amended.2 priorT [mkInv "b" ts00] .investigate 1000 0
     ts00 72761364000 (by decide) (by decide) (by decide) (by decide)⟩

end SymantecCloudSOC
